import Mathlib

/-!
Verification development for the smart-research-agent repository.

Shallow embedding of the pipeline's pure cores:
  tools/vecstore.py   : in-memory vector store (`_MemCollection`), `_cosine`, `rag_query`
  agents/researcher.py: `_split`
  agents/synthesizer.py: `_normalize_ctx`, `synthesize_brief`
  tools/validation.py : `validate_brief`
  agents/quiz.py      : `_clean`, `_sentences`, `_top_keywords`, `_json_unique`,
                        `_cloze_from_brief`, `_presence_from_brief`, `make_quiz`

Modelling conventions:
  Python floats that only flow through comparisons and bookkeeping are modelled as ℚ;
  the similarity function used by the store's `query` is taken as a parameter `cos`
  standing for the floating-point `_cosine` (its mathematical content is verified
  separately over ℝ, where `sqrt` lives).
  Python strings are modelled as `String` or as `List Char` (for the character-level
  regex work of quiz.py); ASCII semantics of `str.lower`, whitespace and `\w` are used.
  Python exceptions are modelled with `Except`; the `random` module is modelled by
  explicit oracle parameters (arbitrary shuffle functions and a choice stream).
-/

namespace SRA

/-! ## tools/vecstore.py : the in-memory store -/

/-- Chunk metadata as produced by `agents/researcher.py::_ingest`:
`{"url": url, "domain": domain, "chunk_id": i}`. -/
structure Meta where
  url : String
  domain : String
  chunk_id : Nat
deriving DecidableEq, Repr

instance : Inhabited Meta := ⟨⟨"", "", 0⟩⟩

/-- One bucket of the global `_MEM` dict:
`_MEM[topic_id] = {"ids": [], "embs": [[...]], "texts": [], "metas": []}`. -/
structure Bucket where
  ids : List String
  embs : List (List ℚ)
  texts : List String
  metas : List Meta
deriving DecidableEq, Repr

/-- Fresh bucket, as installed by `_MEM.setdefault(topic_id, {...})`. -/
def emptyBucket : Bucket := ⟨[], [], [], []⟩

/-- The whole `_MEM` store; `setdefault` semantics make it a total map with
`emptyBucket` as default, so we model it as a function. -/
def Store := String → Bucket

/-- Method `_MemCollection.upsert`: extends the four parallel lists.
Argument order follows the Python signature `upsert(texts, metadatas, ids, embeddings)`. -/
def Bucket.upsert (b : Bucket) (texts : List String) (metadatas : List Meta)
    (ids : List String) (embeddings : List (List ℚ)) : Bucket :=
  ⟨b.ids ++ ids, b.embs ++ embeddings, b.texts ++ texts, b.metas ++ metadatas⟩

/-- Well-formedness of a bucket: the four parallel lists have equal length. -/
def Bucket.WF (b : Bucket) : Prop :=
  b.ids.length = b.embs.length ∧ b.texts.length = b.embs.length ∧
    b.metas.length = b.embs.length

instance (b : Bucket) : Decidable b.WF := by unfold Bucket.WF; infer_instance

/-- Arguments of one `upsert` call. -/
structure UpsertCall where
  texts : List String
  metadatas : List Meta
  ids : List String
  embeddings : List (List ℚ)

/-- Replay a sequence of `upsert` calls on a bucket. -/
def applyUpserts (b : Bucket) (calls : List UpsertCall) : Bucket :=
  calls.foldl (fun acc c => acc.upsert c.texts c.metadatas c.ids c.embeddings) b

/-- Line `sims = [(_cosine(q, e), i) for i, e in enumerate(self._bucket["embs"])]`,
with the floating-point `_cosine q` abstracted to a score function on embeddings. -/
def simsOf (cos : List ℚ → List ℚ → ℚ) (q : List ℚ) (embs : List (List ℚ)) :
    List (ℚ × Nat) :=
  embs.enum.map (fun p => (cos q p.2, p.1))

/-- Comparison realised by `sims.sort(reverse=True)` on `(score, index)` tuples:
descending lexicographic order. Since all indices are distinct, the sorted
permutation is unique, so any sorting algorithm (in particular CPython's stable
timsort and this insertion sort) produces the same list. -/
def simGE (a b : ℚ × Nat) : Prop := b.1 < a.1 ∨ (a.1 = b.1 ∧ b.2 ≤ a.2)

instance : DecidableRel simGE := fun a b => by unfold simGE; infer_instance

instance : IsTotal (ℚ × Nat) simGE :=
  ⟨by
    intro a b
    unfold simGE
    rcases lt_trichotomy a.1 b.1 with h | h | h
    · exact Or.inr (Or.inl h)
    · rcases Nat.le_total b.2 a.2 with h2 | h2
      · exact Or.inl (Or.inr ⟨h, h2⟩)
      · exact Or.inr (Or.inr ⟨h.symm, h2⟩)
    · exact Or.inl (Or.inl h)⟩

instance : IsTrans (ℚ × Nat) simGE :=
  ⟨by
    intro a b c hab hbc
    unfold simGE at *
    rcases hab with h1 | ⟨h1, h1'⟩ <;> rcases hbc with h2 | ⟨h2, h2'⟩
    · exact Or.inl (h2.trans h1)
    · exact Or.inl (h2 ▸ h1)
    · exact Or.inl (h1 ▸ h2)
    · exact Or.inr ⟨h1.trans h2, h2'.trans h1'⟩⟩

/-- Line `sims.sort(reverse=True)`. -/
def sortSims (l : List (ℚ × Nat)) : List (ℚ × Nat) := l.insertionSort simGE

/-- Line `take = sims[:n_results]` applied to the sorted similarities. -/
def selectedSims (cos : List ℚ → List ℚ → ℚ) (b : Bucket) (q : List ℚ)
    (nResults : Nat) : List (ℚ × Nat) :=
  (sortSims (simsOf cos q b.embs)).take nResults

/-- Result dict of `_MemCollection.query` (same keys as the Chroma backend). -/
structure QueryRes where
  ids : List (List String)
  documents : List (List String)
  metadatas : List (List Meta)
  distances : List (List ℚ)
deriving DecidableEq, Repr

/-- Method `_MemCollection.query`: score every stored embedding, sort the
`(score, index)` pairs descending, keep the first `n_results`, and read the
parallel lists at the selected indices (`getD` stands for Python's indexing,
which never goes out of range on well-formed buckets, cf. claim C10).
The query embedding `q` stands for `embed(query_texts[0])`. -/
def memQuery (cos : List ℚ → List ℚ → ℚ) (b : Bucket) (q : List ℚ)
    (nResults : Nat) : QueryRes :=
  let take := selectedSims cos b q nResults
  { ids := [take.map (fun p => b.ids.getD p.2 "")]
    documents := [take.map (fun p => b.texts.getD p.2 "")]
    metadatas := [take.map (fun p => b.metas.getD p.2 default)]
    distances := [take.map (fun p => 1 - p.1)] }

/-- One element of the list returned by `rag_query`: `{"text": ..., "metadata": ...}`. -/
structure CtxItem where
  text : String
  metadata : Meta
deriving DecidableEq, Repr

/-- Function `rag_query(topic_id, query, k)`: query the topic's bucket and
normalise to a list of `{text, metadata}` dicts. -/
def rag_query (cos : List ℚ → List ℚ → ℚ) (store : Store) (topic_id : String)
    (q : List ℚ) (k : Nat) : List CtxItem :=
  let res := memQuery cos (store topic_id) q k
  let docs := res.documents.getD 0 []
  let metas := res.metadatas.getD 0 []
  (List.range docs.length).map (fun i => ⟨docs.getD i "", metas.getD i default⟩)

/-! ## tools/vecstore.py : `_cosine`, over ℝ

The Python function computes `dot(a,b) / (sqrt(Σaᵢ²) * sqrt(Σbᵢ²))` on floats,
returning 0.0 when either argument is empty or has zero norm.  Its mathematical
content lives over the reals (there is no rational square root), so this one
definition is the idealised real-valued reading of the source. -/

/-- Line `s = sum(x*y for x, y in zip(a, b))`. -/
def dotL (a b : List ℝ) : ℝ := (List.zipWith (· * ·) a b).sum

/-- Sum of squares, the radicand of `math.sqrt(sum(x*x for x in a))`. -/
def sumSq (a : List ℝ) : ℝ := (a.map (fun x => x * x)).sum

/-- Function `_cosine(a, b)` from tools/vecstore.py, with `math.sqrt` read as
`Real.sqrt`. Both zero guards of the source are kept. -/
noncomputable def _cosine (a b : List ℝ) : ℝ :=
  if a = [] ∨ b = [] then 0
  else
    let s := dotL a b
    let na := Real.sqrt (sumSq a)
    let nb := Real.sqrt (sumSq b)
    if na = 0 ∨ nb = 0 then 0 else s / (na * nb)

/-! ## agents/researcher.py : `_split` -/

/-- Python whitespace (`str.strip`, `\s`, `str.split`), ASCII fragment. -/
def isWS (c : Char) : Bool :=
  c = ' ' ∨ c = '\t' ∨ c = '\n' ∨ c = '\r' ∨ c = '\x0b' ∨ c = '\x0c'

/-- Python `str.strip()`: drop whitespace from both ends. -/
def pyStrip (l : List Char) : List Char :=
  ((l.dropWhile isWS).reverse.dropWhile isWS).reverse

/-- Loop body of `_split`, with explicit fuel so the recursion is structural
(each iteration drops `step ≥ 1` characters, so `text.length` fuel suffices;
for `step = 0` Python's loop would not terminate and the fuel runs out). -/
def splitWindowsGo (size step : Nat) : Nat → List Char → List (List Char)
  | 0, _ => []
  | fuel + 1, text =>
    if text = [] then []
    else text.take size :: splitWindowsGo size step fuel (text.drop step)

/-- Loop of `_split`: `while i < len(text): out.append(text[i:i+size]); i += size - overlap`,
expressed on the remaining text (`text[i:]`), with `step = size - overlap`. -/
def splitWindows (size step : Nat) (text : List Char) : List (List Char) :=
  splitWindowsGo size step text.length text

/-- Function `_split(text, size=800, overlap=120)` from agents/researcher.py:
the window list, then `[s.strip() for s in out if s.strip()]`. -/
def _split (text : List Char) (size : Nat := 800) (overlap : Nat := 120) :
    List (List Char) :=
  ((splitWindows size (size - overlap) text).map pyStrip).filter (fun s => ¬s.isEmpty)

/-! ## agents/synthesizer.py : `_normalize_ctx` and `synthesize_brief` -/

/-- One element of the list `_normalize_ctx` returns:
`{"chunk": str(text), "meta": meta}`.  For input items of `rag_query`'s shape
(`{"text": t, "metadata": m}`), the falsy-or chain
`item.get("chunk") or item.get("text") or item.get("content") or ""` evaluates
to `t` (also when `t` is empty, via the final `or ""`), and
`meta = {k: v for k, v in item.items() if k not in {"chunk","text","content"}}`
is the singleton dict carrying `m`, modelled by the `Meta` value itself. -/
structure NormItem where
  chunk : String
  meta : Meta
deriving DecidableEq, Repr

/-- Function `_normalize_ctx` specialised to the dict shape `rag_query` produces. -/
def _normalize_ctx (ctx : List CtxItem) : List NormItem :=
  ctx.map (fun it => ⟨it.text, it.metadata⟩)

/-- System message of `synthesize_brief` (verbatim from the source). -/
def synthSystem : String :=
  "You are a careful research assistant. Write a concise brief (6–10 bullet points) based ONLY on the provided context. If something is not in the context, do not invent it."

/-- User message of `synthesize_brief`: `f"Topic: {topic}\n\nContext:\n{context_text}\n\nWrite the brief now."`. -/
def synthUser (topic contextText : String) : String :=
  "Topic: " ++ topic ++ "\n\nContext:\n" ++ contextText ++ "\n\nWrite the brief now."

/-- Expression `topic_id or "default"`: `None` and the empty string are falsy. -/
def topicIdOrDefault (topic_id : Option String) : String :=
  match topic_id with
  | none => "default"
  | some s => if s = "" then "default" else s

/-- Function `synthesize_brief(topic, sources, topic_id)` from agents/synthesizer.py.
The chat completion is the oracle `chat` (system message, user message ↦ reply
content or exception); the embedded query vector for `topic` is `topicVec`.
There is no `try/except` around the model call in the source, so a failing call
propagates: the result is `Except.error`.  On success the source returns the
tuple `(resp.choices[0].message.content.strip(), citations)`. -/
def synthesize_brief (cos : List ℚ → List ℚ → ℚ) (store : Store) (topic : String)
    (topicVec : List ℚ) (topic_id : Option String)
    (chat : String → String → Except String String) :
    Except String (String × List NormItem) :=
  let ctx := rag_query cos store (topicIdOrDefault topic_id) topicVec 15
  let citations := _normalize_ctx ctx
  let contextText := (String.intercalate "\n\n" (citations.map NormItem.chunk)).take 12000
  match chat synthSystem (synthUser topic contextText) with
  | Except.error e => Except.error e
  | Except.ok content => Except.ok (content.trim, citations)

/-- The user prompt `synthesize_brief` sends, for reference in theorem statements. -/
def synthPrompt (cos : List ℚ → List ℚ → ℚ) (store : Store) (topic : String)
    (topicVec : List ℚ) (topic_id : Option String) : String :=
  synthUser topic
    ((String.intercalate "\n\n"
      ((_normalize_ctx (rag_query cos store (topicIdOrDefault topic_id) topicVec 15)).map
        NormItem.chunk)).take 12000)

/-- Citation component of a `synthesize_brief` result (empty on the error path). -/
def citationsOf (r : Except String (String × List NormItem)) : List NormItem :=
  match r with
  | Except.error _ => []
  | Except.ok p => p.2

/-! ## tools/validation.py : `validate_brief` -/

/-- Python `\w` (ASCII fragment): letters, digits, underscore. -/
def isWordChar (c : Char) : Bool :=
  ('a' ≤ c ∧ c ≤ 'z') ∨ ('A' ≤ c ∧ c ≤ 'Z') ∨ ('0' ≤ c ∧ c ≤ '9') ∨ c = '_'

/-- Number of maximal runs of characters satisfying `p`; the Boolean argument
records whether the previous character satisfied `p`. -/
def countRuns (p : Char → Bool) : List Char → Bool → Nat
  | [], _ => 0
  | c :: rest, inRun =>
    if p c then (if inRun then 0 else 1) + countRuns p rest true
    else countRuns p rest false

/-- Line `word_count = len(re.findall(r"\b\w+\b", brief_text or ""))`: each match
is a maximal run of word characters. -/
def wordCount (text : List Char) : Nat := countRuns isWordChar text false

/-- One citation dict as seen by `validate_brief`; `domain` models `c.get("domain")`
(`none` = key absent). -/
structure VCitation where
  domain : Option String
deriving DecidableEq, Repr

/-- Truthiness filter `if c.get("domain")`: present and non-empty. -/
def truthyDomain (c : VCitation) : Option String :=
  match c.domain with
  | none => none
  | some d => if d = "" then none else some d

/-- First-occurrence de-duplication (Python `set` cardinality is order-free, so
any duplicate-free representative list works for counting). -/
def dedupFirst {α : Type} [DecidableEq α] (seen : List α) : List α → List α
  | [] => []
  | x :: xs => if x ∈ seen then dedupFirst seen xs else x :: dedupFirst (x :: seen) xs

/-- Line `unique_domains = len({c.get("domain") for c in (citations or []) if c.get("domain")})`. -/
def uniqueDomains (citations : List VCitation) : Nat :=
  (dedupFirst [] (citations.filterMap truthyDomain)).length

/-- Return value of `validate_brief`. -/
structure ValidationMetrics where
  word_count : Nat
  unique_domains : Nat
  readability_grade : ℚ
  passed : Bool
deriving DecidableEq, Repr

/-- Function `validate_brief(brief_text, citations)` from tools/validation.py.
`readability` is the value produced by the `textstat` library call (or the
`99.0` sentinel its surrounding `try/except` substitutes); that library is not
part of this repository, so the grade is a parameter. -/
def validate_brief (brief_text : List Char) (citations : List VCitation)
    (readability : ℚ) : ValidationMetrics :=
  let wc := wordCount brief_text
  let ud := uniqueDomains citations
  { word_count := wc
    unique_domains := ud
    readability_grade := readability
    passed := decide (250 ≤ wc ∧ wc ≤ 350) && decide (3 ≤ ud) && decide (readability ≤ 10) }

/-! ## agents/quiz.py

Character-level model of the heuristic quiz generator.  Randomness
(`random.shuffle`, `random.choice`) is modelled by an oracle of arbitrary
shuffle functions (indexed by the number of items built so far) and a choice
stream; `while` loops driven by random choices carry explicit fuel, with
exhausted fuel standing for the divergence Python would exhibit on a stream
that never produces fresh values. -/

/-- ASCII letter, the `[A-Za-z]` class of `_top_keywords`. -/
def isAlphaC (c : Char) : Bool := ('a' ≤ c ∧ c ≤ 'z') ∨ ('A' ≤ c ∧ c ≤ 'Z')

/-- Character class `[A-Za-z\-]`. -/
def isKwChar (c : Char) : Bool := isAlphaC c || c = '-'

/-- The `STOP` set of agents/quiz.py. -/
def STOP : List (List Char) :=
  (["the", "a", "an", "and", "or", "but", "if", "then", "is", "are", "was",
    "were", "be", "been", "being", "to", "of", "in", "on", "for", "by", "with",
    "as", "at", "from", "that", "this", "these", "those", "it", "its", "their",
    "his", "her", "you", "your", "we", "our", "they", "them", "i", "me", "my",
    "not", "no", "yes", "very", "more", "most", "such", "also", "can", "may",
    "might", "should", "could"]).map String.toList

/-- Markdown-link removal `re.sub(r"\[([^\]]+)\]\([^)]+\)", r"\1", md)`:
at each `[`, read a non-empty run of non-`]` characters, then require
`]`, `(`, a non-empty run of non-`)` characters and `)`; on success emit the
label and continue after the `)`, otherwise advance one character. -/
def stripLinksGo : Nat → List Char → List Char
  | 0, l => l
  | _, [] => []
  | fuel + 1, c :: rest =>
    if c = '[' then
      let label := rest.takeWhile (fun x => x ≠ ']')
      let afterL := rest.drop (label.length + 2)
      let url := afterL.takeWhile (fun x => x ≠ ')')
      if label ≠ [] ∧ rest.getD label.length ' ' = ']' ∧
          rest.getD (label.length + 1) ' ' = '(' ∧ url ≠ [] ∧
          afterL.getD url.length ' ' = ')' then
        label ++ stripLinksGo fuel (rest.drop (label.length + url.length + 3))
      else c :: stripLinksGo fuel rest
    else c :: stripLinksGo fuel rest

/-- Entry point for the link removal; every step consumes at least one
character, so `md.length` fuel is never exhausted. -/
def stripLinks (md : List Char) : List Char := stripLinksGo md.length md

/-- Whitespace collapse `re.sub(r"\s+", " ", md)` as a one-pass state machine:
the Boolean records whether the previous character was whitespace, so each
maximal whitespace run contributes a single space. -/
def collapseWSGo : List Char → Bool → List Char
  | [], _ => []
  | c :: rest, prevWS =>
    if isWS c then (if prevWS then [] else [' ']) ++ collapseWSGo rest true
    else c :: collapseWSGo rest false

def collapseWS (l : List Char) : List Char := collapseWSGo l false

/-- Function `_clean(md)` from agents/quiz.py. -/
def _clean (md : List Char) : List Char := pyStrip (collapseWS (stripLinks md))

/-- Look-behind class `[.!?]`. -/
def isSentEnd (c : Char) : Bool := c = '.' ∨ c = '!' ∨ c = '?'

/-- Splitter `re.split(r"(?<=[.!?])\s+", text)`: a maximal whitespace run whose
preceding character is `.`, `!` or `?` separates parts.  The accumulator holds
the current part reversed (its head is the look-behind character); the Boolean
records whether we are inside a separating whitespace run, whose remaining
whitespace is skipped.  Whitespace not preceded by `.!?` stays in the part. -/
def sentSplitGo : List Char → Bool → List Char → List (List Char)
  | [], _, acc => [acc.reverse]
  | c :: rest, inDelim, acc =>
    if inDelim ∧ isWS c then sentSplitGo rest true acc
    else if isWS c ∧ isSentEnd (acc.headD ' ') then
      acc.reverse :: sentSplitGo rest true []
    else sentSplitGo rest false (c :: acc)

def sentSplit (text : List Char) : List (List Char) := sentSplitGo text false []

/-- Number of tokens of `p.split()`: maximal non-whitespace runs. -/
def pyTokens (l : List Char) : Nat := countRuns (fun c => ¬ isWS c) l false

/-- Function `_sentences(text)` from agents/quiz.py: split, keep parts of at
least 6 words. -/
def _sentences (text : List Char) : List (List Char) :=
  (sentSplit text).filter (fun p => 6 ≤ pyTokens p)

/-- Matches of `re.findall(r"[A-Za-z][A-Za-z\-]{2,}", text)`: at a letter, the
greedy match is the maximal run of letters/hyphens from here; it is kept when
its length is at least 3 and scanning resumes after it, otherwise scanning
advances one character. -/
def findWordsGo : Nat → List Char → List (List Char)
  | 0, _ => []
  | _, [] => []
  | fuel + 1, c :: rest =>
    if isAlphaC c then
      let run := c :: rest.takeWhile isKwChar
      if 3 ≤ run.length then run :: findWordsGo fuel (rest.drop (run.length - 1))
      else findWordsGo fuel rest
    else findWordsGo fuel rest

/-- Entry point for the keyword scan (`text.length` fuel always suffices). -/
def findWords (text : List Char) : List (List Char) := findWordsGo text.length text

/-- Insert into a `Counter`-like association list: bump the count of a known
word, else append it (dict insertion order = first occurrence). -/
def bumpCount (w : List Char) : List (List Char × Nat) → List (List Char × Nat)
  | [] => [(w, 1)]
  | (x, n) :: xs => if x = w then (x, n + 1) :: xs else (x, n) :: bumpCount w xs

/-- The `Counter(...)` of `_top_keywords`, as an insertion-ordered list. -/
def tally (ws : List (List Char)) : List (List Char × Nat) :=
  ws.foldl (fun acc w => bumpCount w acc) []

/-- Stable insertion (descending by count): the inserted element precedes the
first strictly smaller count and follows all earlier greater-or-equal counts. -/
def insCountDesc (x : List Char × Nat) : List (List Char × Nat) → List (List Char × Nat)
  | [] => [x]
  | y :: ys => if y.2 ≤ x.2 then x :: y :: ys else y :: insCountDesc x ys

/-- Stable sort by count descending, ties in first-occurrence order — the
order `Counter.most_common` produces (CPython uses a stable descending sort). -/
def sortCountDesc : List (List Char × Nat) → List (List Char × Nat)
  | [] => []
  | x :: xs => insCountDesc x (sortCountDesc xs)

/-- Function `_top_keywords(text, k=60)` from agents/quiz.py. -/
def _top_keywords (text : List Char) (k : Nat := 60) : List (List Char) :=
  let words := findWords (text.map Char.toLower)
  let cnt := tally (words.filter (fun w => w ∉ STOP))
  ((sortCountDesc cnt).take k).map Prod.fst

/-- One quiz item `{"q", "options", "answer_index", "explanation"}`. -/
structure QItem where
  q : List Char
  options : List (List Char)
  answer_index : Nat
  explanation : List Char
deriving DecidableEq, Repr

instance : Inhabited QItem := ⟨⟨[], [], 0, []⟩⟩

/-- Function `_json_unique(items)`: first-occurrence de-duplication.  For this
item shape (fixed keys, string/list/int values) equality of
`json.dumps(it, sort_keys=True)` is exactly structural equality. -/
def _json_unique (items : List QItem) : List QItem := dedupFirst [] items

/-- Apostrophe, kept out of string literals. -/
def apost : Char := Char.ofNat 39

/-- Explanation `f"The blank is '{correct}'."`. -/
def clozeExpl (w : List Char) : List Char :=
  "The blank is ".toList ++ [apost] ++ w ++ [apost] ++ ".".toList

/-- Explanation `f"'{correct}' appears in the brief."`. -/
def presenceExpl (w : List Char) : List Char :=
  [apost] ++ w ++ [apost] ++ " appears in the brief.".toList

/-- The cloze blank `"____"`. -/
def BLANK : List Char := "____".toList

/-- The suffix pool `["s","ing","ness","ity","ism"]`. -/
def SUFFIXES : List (List Char) := (["s", "ing", "ness", "ity", "ism"]).map String.toList

/-- Prefix test used by the substring check. -/
def leadsWith : List Char → List Char → Bool
  | [], _ => true
  | _ :: _, [] => false
  | p :: ps, c :: cs => p = c && leadsWith ps cs

/-- Python's `pat in s` on strings: substring containment. -/
def hasSub (pat : List Char) : List Char → Bool
  | [] => leadsWith pat []
  | c :: rest => leadsWith pat (c :: rest) || hasSub pat rest

/-- Replacement `re.sub(re.escape(correct), "____", s, flags=re.IGNORECASE, count=1)`:
mask the first case-insensitive occurrence (the pattern is already lowercase). -/
def replaceFirstCI (pat : List Char) : List Char → List Char
  | [] => []
  | c :: rest =>
    if ((c :: rest).take pat.length).map Char.toLower = pat then
      BLANK ++ (c :: rest).drop pat.length
    else c :: replaceFirstCI pat rest

/-- Python `abs(len(k) - len(correct))` on naturals. -/
def natAbsDiff (a b : Nat) : Nat := (a - b) + (b - a)

/-- Python `list.index`: index of the first occurrence (total model; callers
only use it on present elements). -/
def pyIndex {α : Type} [DecidableEq α] (x : α) : List α → Nat
  | [] => 0
  | y :: ys => if y = x then 0 else 1 + pyIndex x ys

/-- Distractor loop `for k in pool: if k not in distractors: append; if len == 3: break`. -/
def take3 : List (List Char) → List (List Char) → List (List Char)
  | [], acc => acc
  | k :: ks, acc =>
    let acc' := if k ∈ acc then acc else acc ++ [k]
    if acc'.length = 3 then acc' else take3 ks acc'

/-- Loop `while len(distractors) < 3: variant = correct + random.choice(SUFFIXES); ...`,
driven by the choice stream `rnd` with explicit fuel (Python diverges exactly
when no fresh variant ever comes up, i.e. for every finite fuel the result is
still short). -/
def pickVariants (correct : List Char) (rnd : Nat → Fin 5) :
    Nat → Nat → List (List Char) → List (List Char)
  | 0, _, acc => acc
  | fuel + 1, t, acc =>
    if 3 ≤ acc.length then acc
    else
      let variant := correct ++ SUFFIXES.getD (rnd t) []
      if variant ∈ acc then pickVariants correct rnd fuel (t + 1) acc
      else pickVariants correct rnd fuel (t + 1) (acc ++ [variant])

/-- Oracle for the `random` module: arbitrary shuffle functions (indexed by the
number of items built when the call happens) and a choice stream per item. -/
structure RandOracle where
  shuffleSents : List (List Char) → List (List Char)
  shufflePool : Nat → List (List Char) → List (List Char)
  shuffleOpts : Nat → List (List Char) → List (List Char)
  shuffleOpts2 : Nat → List (List Char) → List (List Char)
  choice : Nat → Nat → Fin 5
  fuel : Nat

/-- Sentence loop of `_cloze_from_brief`.  The `used`/`out` accumulators mirror
`used_answers` and `out`; the `if len(out) >= n: break` check sits after the
append, as in the source. -/
def clozeGo (R : RandOracle) (keys : List (List Char)) (n : Nat) :
    List (List Char) → List (List Char) → List QItem → List QItem
  | [], _, out => out
  | s :: ss, used, out =>
    let sLow := s.map Char.toLower
    let cand := keys.filter (fun k => hasSub k sLow ∧ 4 ≤ k.length ∧ k ∉ used)
    match cand with
    | [] => clozeGo R keys n ss used out
    | correct :: _ =>
      let masked := replaceFirstCI correct s
      let pool := R.shufflePool out.length
        (keys.filter (fun k => k ≠ correct ∧ natAbsDiff k.length correct.length ≤ 3))
      let distractors := pickVariants correct (R.choice out.length) R.fuel 0 (take3 pool [])
      let options := R.shuffleOpts out.length (correct :: distractors)
      let item : QItem := ⟨masked, options, pyIndex correct options, clozeExpl correct⟩
      let out' := out ++ [item]
      if n ≤ out'.length then out' else clozeGo R keys n ss (used ++ [correct]) out'

/-- Function `_cloze_from_brief(brief_md, n)` from agents/quiz.py. -/
def _cloze_from_brief (R : RandOracle) (brief : List Char) (n : Nat) : List QItem :=
  let text := _clean brief
  clozeGo R (_top_keywords text 60) n (R.shuffleSents (_sentences text)) [] []

/-- Stem of every presence-tier item. -/
def presenceStem : List Char :=
  "Which of the following terms is explicitly mentioned in the brief?".toList

/-- Loop of `_presence_from_brief`: `while len(out) < needed and i + 4 <= len(keys)`,
with the key list consumed four at a time. -/
def presenceGo (R : RandOracle) (needed : Nat) :
    List (List Char) → List QItem → List QItem
  | k0 :: k1 :: k2 :: k3 :: rest, out =>
    if out.length < needed then
      let options := R.shuffleOpts2 out.length (k0 :: [k1, k2, k3])
      let item : QItem := ⟨presenceStem, options, pyIndex k0 options, presenceExpl k0⟩
      presenceGo R needed rest (out ++ [item])
    else out
  | _, out => out

/-- Function `_presence_from_brief(brief_md, needed)` from agents/quiz.py. -/
def _presence_from_brief (R : RandOracle) (brief : List Char) (needed : Nat) :
    List QItem :=
  let keys := (_top_keywords (_clean brief) 60).filter (fun k => 4 ≤ k.length)
  presenceGo R needed keys []

/-- Function `_llm_quiz(brief_md, topic, n)` from agents/quiz.py, in the typed
model: without a credential (`OPENAI_API_KEY` absent or empty, both falsy) it
returns `[]` before any network call; `resp = none` is the `except` path of the
`try` block (API failure or malformed JSON); a parsed reply is filtered to the
items with the required keys — always present in this typed item shape — and
exactly 4 options, then truncated to `n`. -/
def _llm_quiz (key : Option String) (resp : Option (List QItem)) (n : Nat) :
    List QItem :=
  match key with
  | none => []
  | some k =>
    if k = "" then [] else
      match resp with
      | none => []
      | some data => (data.filter (fun it => it.options.length = 4)).take n

/-- Set size `len({q["q"] for q in qs})`. -/
def distinctStems (qs : List QItem) : Nat := (dedupFirst [] (qs.map QItem.q)).length

/-- Python `str.replace(old, new)`: replace every non-overlapping occurrence,
left to right.  The `pat ≠ []` guard keeps the match semantics total; call
sites use the 4-character blank, and `l.length` fuel always suffices. -/
def replaceAllGo (pat repl : List Char) : Nat → List Char → List Char
  | 0, l => l
  | _, [] => []
  | fuel + 1, c :: rest =>
    if pat ≠ [] ∧ ((c :: rest).take pat.length) = pat then
      repl ++ replaceAllGo pat repl fuel ((c :: rest).drop pat.length)
    else c :: replaceAllGo pat repl fuel rest

def replaceAll (pat repl : List Char) (l : List Char) : List Char :=
  replaceAllGo pat repl l.length l

/-- Decimal rendering of a natural number, as Python's `str(idx+1)`
(`n` fuel suffices since the argument at least halves each step). -/
def natDigitsGo : Nat → Nat → List Char
  | 0, n => [Char.ofNat (48 + n % 10)]
  | fuel + 1, n =>
    if n < 10 then [Char.ofNat (48 + n)]
    else natDigitsGo fuel (n / 10) ++ [Char.ofNat (48 + n % 10)]

def natDigits (n : Nat) : List Char := natDigitsGo n n

/-- Replacement string `f"____ ({idx+1})"`. -/
def numberedBlank (idx : Nat) : List Char :=
  BLANK ++ " (".toList ++ natDigits (idx + 1) ++ ")".toList

/-- Final guard of `make_quiz`: when every stem is identical, rewrite stem `i`
by `q["q"].replace("____", f"____ ({i+1})")`. -/
def stemGuard (qs : List QItem) : List QItem :=
  if distinctStems qs = 1 then
    qs.mapIdx (fun i q => { q with q := replaceAll BLANK (numberedBlank i) q.q })
  else qs

/-- Function `make_quiz` up to (excluding) the final stem guard: LLM tier, the
two fallback tiers each filling the shortfall, de-duplication, cap at `n`. -/
def make_quiz_pre (R : RandOracle) (key : Option String) (resp : Option (List QItem))
    (brief : List Char) (n : Nat := 5) : List QItem :=
  let qs1 := _llm_quiz key resp n
  let qs2 := if qs1.length < n then qs1 ++ _cloze_from_brief R brief (n - qs1.length) else qs1
  let qs3 := if qs2.length < n then qs2 ++ _presence_from_brief R brief (n - qs2.length) else qs2
  (_json_unique qs3).take n

/-- Function `make_quiz(brief_md, topic, n=5)` from agents/quiz.py (the `topic`
string only feeds the LLM prompt, which sits behind the `resp` oracle). -/
def make_quiz (R : RandOracle) (key : Option String) (resp : Option (List QItem))
    (brief : List Char) (n : Nat := 5) : List QItem :=
  stemGuard (make_quiz_pre R key resp brief n)

/-- Structural validity of a quiz item, as the testable properties state it:
4 options, answer index in range, and the option at the answer index is the
item's correct term — the word its explanation (from either fallback template)
was built around. -/
def goodItem (it : QItem) : Prop :=
  it.options.length = 4 ∧ it.answer_index < 4 ∧
    ∃ w, it.options.getD it.answer_index [] = w ∧
      (it.explanation = clozeExpl w ∨ it.explanation = presenceExpl w)

/-! # Theorems -/

/-! ## Claim C5 : `_cosine` -/

theorem dotL_comm (a b : List ℝ) : dotL a b = dotL b a := by
  unfold dotL
  rw [List.zipWith_comm_of_comm (· * ·) mul_comm]

theorem sumSq_nonneg (a : List ℝ) : 0 ≤ sumSq a := by
  refine List.sum_nonneg ?_
  intro x hx
  obtain ⟨y, _, rfl⟩ := List.mem_map.mp hx
  exact mul_self_nonneg y

theorem sum_nonneg_eq_zero {l : List ℝ} (h0 : ∀ x ∈ l, 0 ≤ x) (hs : l.sum = 0) :
    ∀ x ∈ l, x = 0 := by
  induction l with
  | nil => intro x hx; cases hx
  | cons a t ih =>
    have ha : 0 ≤ a := h0 a (List.mem_cons_self a t)
    have ht : 0 ≤ t.sum := List.sum_nonneg (fun x hx => h0 x (List.mem_cons_of_mem a hx))
    have hsum : a + t.sum = 0 := by simpa using hs
    have ha0 : a = 0 := by linarith
    have hts : t.sum = 0 := by linarith
    intro x hx
    rcases List.mem_cons.mp hx with rfl | hx'
    · exact ha0
    · exact ih (fun y hy => h0 y (List.mem_cons_of_mem a hy)) hts x hx'

theorem sumSq_pos_of_nonzero {v : List ℝ} (h : ∃ x ∈ v, x ≠ 0) : 0 < sumSq v := by
  rcases h with ⟨x, hx, hx0⟩
  rcases lt_or_eq_of_le (sumSq_nonneg v) with hlt | heq
  · exact hlt
  · exfalso
    have hall := sum_nonneg_eq_zero (l := v.map (fun x => x * x))
      (fun y hy => by
        obtain ⟨z, _, rfl⟩ := List.mem_map.mp hy
        exact mul_self_nonneg z) heq.symm
    have : x * x = 0 := hall (x * x) (List.mem_map.mpr ⟨x, hx, rfl⟩)
    exact hx0 (by nlinarith)

theorem dotL_self (v : List ℝ) : dotL v v = sumSq v := by
  unfold dotL sumSq
  rw [List.zipWith_same]

/-- Claim C5: `_cosine` is symmetric; a vector with some non-zero component has
self-similarity exactly 1; pairing with an empty or zero-norm vector gives 0 on
either side (so, the function being total, no division error can occur). -/
theorem c5_cosine_symm_self_zero :
    (∀ a b : List ℝ, _cosine a b = _cosine b a) ∧
    (∀ v : List ℝ, (∃ x ∈ v, x ≠ 0) → _cosine v v = 1) ∧
    (∀ v w : List ℝ, w = [] ∨ sumSq w = 0 → _cosine v w = 0 ∧ _cosine w v = 0) := by
  have hsymm : ∀ a b : List ℝ, _cosine a b = _cosine b a := by
    intro a b
    unfold _cosine
    have h1 : (a = [] ∨ b = []) ↔ (b = [] ∨ a = []) := or_comm
    have h2 : (Real.sqrt (sumSq a) = 0 ∨ Real.sqrt (sumSq b) = 0) ↔
        (Real.sqrt (sumSq b) = 0 ∨ Real.sqrt (sumSq a) = 0) := or_comm
    simp only [dotL_comm a b, h1, h2,
      mul_comm (Real.sqrt (sumSq a)) (Real.sqrt (sumSq b))]
  refine ⟨hsymm, ?_, ?_⟩
  · intro v hv
    have hne : v ≠ [] := by
      rcases hv with ⟨x, hx, _⟩
      intro h; subst h; cases hx
    have hpos : 0 < sumSq v := sumSq_pos_of_nonzero hv
    have hsq : Real.sqrt (sumSq v) ≠ 0 := by
      have := Real.sqrt_pos.mpr hpos
      exact ne_of_gt this
    unfold _cosine
    rw [if_neg (by simp [hne]), if_neg (by simp [hsq])]
    simp only [dotL_self]
    rw [Real.mul_self_sqrt (le_of_lt hpos)]
    exact div_self (ne_of_gt hpos)
  · intro v w hw
    have hvw : _cosine v w = 0 := by
      rcases hw with rfl | hw0
      · unfold _cosine; rw [if_pos (Or.inr rfl)]
      · by_cases hv : v = [] ∨ w = []
        · unfold _cosine; rw [if_pos hv]
        · unfold _cosine
          rw [if_neg hv, if_pos (Or.inr (by rw [hw0, Real.sqrt_zero]))]
    exact ⟨hvw, (hsymm w v).trans hvw⟩

/-- Witness for C5 at the vector `[1]`. -/
theorem c5_cosine_symm_self_zero_witness :
    (∃ x ∈ [(1 : ℝ)], x ≠ 0) ∧ _cosine [(1 : ℝ)] [(1 : ℝ)] = 1 :=
  ⟨⟨1, by simp⟩, c5_cosine_symm_self_zero.2.1 [(1 : ℝ)] ⟨1, by simp⟩⟩

/-! ## Claim C9 : `validate_brief` -/

theorem wordCount_concat (n : Nat) :
    wordCount ((List.replicate n ['w', ' ']).flatten) = n := by
  induction n with
  | zero => rfl
  | succ m ih =>
    have : (List.replicate (m + 1) ['w', ' ']).flatten =
        'w' :: ' ' :: (List.replicate m ['w', ' ']).flatten := by
      simp [List.replicate_succ]
    rw [this]
    unfold wordCount at ih ⊢
    simp only [countRuns, show isWordChar 'w' = true from rfl,
      show isWordChar ' ' = false from rfl]
    rw [ih]
    exact Nat.add_comm 1 m


/-- Claim C9: `validate_brief` passes exactly when the word count lies in
[250, 350], there are at least 3 distinct non-empty citation domains, and the
readability grade is at most 10; a 300-word brief with 4 distinct domains and
grade 8 passes, a 100-word brief with the same domains and grade fails. -/
theorem c9_validate_brief_passed :
    (∀ (text : List Char) (cites : List VCitation) (grade : ℚ),
      (validate_brief text cites grade).passed = true ↔
        (250 ≤ wordCount text ∧ wordCount text ≤ 350 ∧
          3 ≤ uniqueDomains cites ∧ grade ≤ 10)) ∧
    (validate_brief ((List.replicate 300 ['w', ' ']).flatten)
        [⟨some "a.com"⟩, ⟨some "b.com"⟩, ⟨some "c.com"⟩, ⟨some "d.com"⟩]
        8).passed = true ∧
    (validate_brief ((List.replicate 100 ['w', ' ']).flatten)
        [⟨some "a.com"⟩, ⟨some "b.com"⟩, ⟨some "c.com"⟩, ⟨some "d.com"⟩]
        8).passed = false := by
  have hiff : ∀ (text : List Char) (cites : List VCitation) (grade : ℚ),
      (validate_brief text cites grade).passed = true ↔
        (250 ≤ wordCount text ∧ wordCount text ≤ 350 ∧
          3 ≤ uniqueDomains cites ∧ grade ≤ 10) := by
    intro text cites grade
    unfold validate_brief
    simp only [Bool.and_eq_true, decide_eq_true_eq]
    tauto
  refine ⟨hiff, ?_, ?_⟩
  · rw [hiff, wordCount_concat]
    refine ⟨by norm_num, by norm_num, ?_, by norm_num⟩
    show 3 ≤ uniqueDomains _
    decide
  · rw [Bool.eq_false_iff]
    intro hpass
    have := (hiff _ _ _).mp hpass
    rw [wordCount_concat] at this
    omega

/-! ## Claim C6 : `_split` -/

theorem splitWindowsGo_getD (size step : Nat) (hstep : 0 < step) :
    ∀ (fuel : Nat) (text : List Char), text.length ≤ fuel →
      ∀ k, k < (splitWindowsGo size step fuel text).length →
        (splitWindowsGo size step fuel text).getD k [] =
          (text.drop (step * k)).take size := by
  intro fuel
  induction fuel with
  | zero => intro text _ k hk; simp [splitWindowsGo] at hk
  | succ f ih =>
    intro text hlen k hk
    by_cases hnil : text = []
    · subst hnil; simp [splitWindowsGo] at hk
    · rw [splitWindowsGo, if_neg hnil] at hk ⊢
      cases k with
      | zero => simp
      | succ k' =>
        have hdroplen : (text.drop step).length ≤ f := by
          have := List.length_drop step text
          have hpos : 0 < text.length := List.length_pos.mpr hnil
          omega
        have hk' : k' < (splitWindowsGo size step f (text.drop step)).length := by
          simpa using hk
        have := ih (text.drop step) hdroplen k' hk'
        simpa [List.drop_drop, Nat.mul_succ, Nat.add_comm (step * k') step] using this

theorem splitWindowsGo_length_iff (size step : Nat) (hstep : 0 < step) :
    ∀ (fuel : Nat) (text : List Char), text.length ≤ fuel →
      ∀ k, k < (splitWindowsGo size step fuel text).length ↔ step * k < text.length := by
  intro fuel
  induction fuel with
  | zero =>
    intro text hlen k
    have : text = [] := List.eq_nil_of_length_eq_zero (by omega)
    subst this
    simp [splitWindowsGo]
  | succ f ih =>
    intro text hlen k
    by_cases hnil : text = []
    · subst hnil; simp [splitWindowsGo]
    · rw [splitWindowsGo, if_neg hnil]
      have hpos : 0 < text.length := List.length_pos.mpr hnil
      cases k with
      | zero => simpa using hpos
      | succ k' =>
        have hdroplen : (text.drop step).length ≤ f := by
          have := List.length_drop step text
          omega
        have := ih (text.drop step) hdroplen k'
        simp only [List.length_cons, List.length_drop] at this ⊢
        rw [Nat.succ_lt_succ_iff, this, Nat.mul_succ]
        omega

theorem splitWindowsGo_mem_length (size step : Nat) :
    ∀ (fuel : Nat) (text : List Char) (w : List Char),
      w ∈ splitWindowsGo size step fuel text → w.length ≤ size := by
  intro fuel
  induction fuel with
  | zero => intro text w hw; simp [splitWindowsGo] at hw
  | succ f ih =>
    intro text w hw
    by_cases hnil : text = []
    · subst hnil; simp [splitWindowsGo] at hw
    · rw [splitWindowsGo, if_neg hnil] at hw
      rcases List.mem_cons.mp hw with rfl | hmem
      · simp
      · exact ih _ _ hmem

theorem pyStrip_length_le (l : List Char) : (pyStrip l).length ≤ l.length := by
  unfold pyStrip
  have h1 := (List.dropWhile_sublist (l := l) isWS).length_le
  have h2 := (List.dropWhile_sublist (l := (l.dropWhile isWS).reverse) isWS).length_le
  simp only [List.length_reverse] at h2 ⊢
  omega

/-- Claim C6: with window size 800 and overlap 120, the k-th pre-trim window of
`_split` starts at position `(800 - 120) * k = 680 * k` of the text and is its
800-character slice there; every returned chunk has length at most 800 and is
non-empty after trimming; and every character position of the input is covered
by some pre-trim window (so consecutive windows leave no gap). -/
theorem c6_split_windows (text : List Char) :
    (∀ k, k < (splitWindows 800 680 text).length →
      (splitWindows 800 680 text).getD k [] = (text.drop (680 * k)).take 800) ∧
    (∀ c ∈ _split text, c.length ≤ 800 ∧ c ≠ []) ∧
    (∀ p, p < text.length → ∃ k, k < (splitWindows 800 680 text).length ∧
      680 * k ≤ p ∧ p < 680 * k + 800) := by
  refine ⟨?_, ?_, ?_⟩
  · intro k hk
    exact splitWindowsGo_getD 800 680 (by norm_num) text.length text le_rfl k hk
  · intro c hc
    unfold _split at hc
    rcases List.mem_filter.mp hc with ⟨hmem, hne⟩
    rcases List.mem_map.mp hmem with ⟨w, hw, rfl⟩
    constructor
    · exact le_trans (pyStrip_length_le w) (splitWindowsGo_mem_length 800 680 _ _ _ hw)
    · simpa using hne
  · intro p hp
    have hle : 680 * (p / 680) ≤ p := by
      rw [Nat.mul_comm]; exact Nat.div_mul_le_self p 680
    refine ⟨p / 680, ?_, hle, ?_⟩
    · show p / 680 < (splitWindowsGo 800 680 text.length text).length
      rw [splitWindowsGo_length_iff 800 680 (by norm_num) text.length text le_rfl]
      omega
    · have hmod := Nat.div_add_mod p 680
      have : p % 680 < 680 := Nat.mod_lt _ (by norm_num)
      omega

set_option maxRecDepth 8000 in
/-- Witness for C6 on a 700-character text: the second window starts at 680,
and position 690 is covered. -/
theorem c6_split_windows_witness :
    (splitWindows 800 680 (List.replicate 700 'a')).getD 1 [] =
      ((List.replicate 700 'a').drop (680 * 1)).take 800 ∧
    ∃ k, k < (splitWindows 800 680 (List.replicate 700 'a')).length ∧
      680 * k ≤ 690 ∧ 690 < 680 * k + 800 :=
  ⟨(c6_split_windows _).1 1 (by decide),
    (c6_split_windows _).2.2 690 (by decide)⟩

/-! ## Claims C1, C4, C10 : the Retriever -/

theorem simsOf_map_snd (cos : List ℚ → List ℚ → ℚ) (q : List ℚ) (embs : List (List ℚ)) :
    (simsOf cos q embs).map Prod.snd = List.range embs.length := by
  unfold simsOf
  rw [List.map_map]
  exact List.enum_map_fst embs

theorem sortSims_perm (l : List (ℚ × Nat)) : List.Perm (sortSims l) l :=
  List.perm_insertionSort simGE l

theorem simsOf_length (cos : List ℚ → List ℚ → ℚ) (q : List ℚ) (embs : List (List ℚ)) :
    (simsOf cos q embs).length = embs.length := by
  unfold simsOf
  simp

theorem sortSims_snd_nodup (cos : List ℚ → List ℚ → ℚ) (q : List ℚ)
    (embs : List (List ℚ)) :
    ((sortSims (simsOf cos q embs)).map Prod.snd).Nodup := by
  have hperm : List.Perm ((sortSims (simsOf cos q embs)).map Prod.snd)
      ((simsOf cos q embs).map Prod.snd) := (sortSims_perm _).map _
  rw [hperm.nodup_iff, simsOf_map_snd]
  exact List.nodup_range _

theorem selectedSims_snd_nodup (cos : List ℚ → List ℚ → ℚ) (b : Bucket) (q : List ℚ)
    (n : Nat) : ((selectedSims cos b q n).map Prod.snd).Nodup := by
  have hsub : List.Sublist ((selectedSims cos b q n).map Prod.snd)
      ((sortSims (simsOf cos q b.embs)).map Prod.snd) :=
    (List.take_sublist n _).map _
  exact (sortSims_snd_nodup cos q b.embs).sublist hsub

theorem selectedSims_snd_lt (cos : List ℚ → List ℚ → ℚ) (b : Bucket) (q : List ℚ)
    (n : Nat) : ∀ i ∈ (selectedSims cos b q n).map Prod.snd, i < b.embs.length := by
  intro i hi
  have hsub : List.Sublist ((selectedSims cos b q n).map Prod.snd)
      ((sortSims (simsOf cos q b.embs)).map Prod.snd) :=
    (List.take_sublist n _).map _
  have hperm : List.Perm ((sortSims (simsOf cos q b.embs)).map Prod.snd)
      ((simsOf cos q b.embs).map Prod.snd) := (sortSims_perm _).map _
  have : i ∈ List.range b.embs.length := by
    rw [← simsOf_map_snd cos q]
    exact hperm.mem_iff.mp (hsub.mem hi)
  exact List.mem_range.mp this

theorem selectedSims_length (cos : List ℚ → List ℚ → ℚ) (b : Bucket) (q : List ℚ)
    (n : Nat) : (selectedSims cos b q n).length = min b.embs.length n := by
  unfold selectedSims
  rw [List.length_take, (sortSims_perm _).length_eq, simsOf_length]
  omega

/-- Claim C1 (amended): the selected `(score, index)` pairs of `_MemCollection.query`
are strictly ordered: descending by score, and among equal scores descending by
insertion index — the chunk inserted later comes first, the opposite of a
stable ascending tie-break.  The result lists are the reads of the parallel
lists along that selection. -/
theorem c1_retriever_order (cos : List ℚ → List ℚ → ℚ) (b : Bucket) (q : List ℚ)
    (n : Nat) :
    (memQuery cos b q n).documents =
        [(selectedSims cos b q n).map (fun p => b.texts.getD p.2 "")] ∧
    (memQuery cos b q n).ids =
        [(selectedSims cos b q n).map (fun p => b.ids.getD p.2 "")] ∧
    (selectedSims cos b q n).Pairwise
      (fun a c => c.1 < a.1 ∨ (a.1 = c.1 ∧ c.2 < a.2)) := by
  refine ⟨rfl, rfl, ?_⟩
  have hsorted : (sortSims (simsOf cos q b.embs)).Pairwise simGE :=
    List.sorted_insertionSort simGE (simsOf cos q b.embs)
  have hne : (sortSims (simsOf cos q b.embs)).Pairwise (fun a c => a.2 ≠ c.2) := by
    have h := sortSims_snd_nodup cos q b.embs
    unfold List.Nodup at h
    exact List.pairwise_map.mp h
  have hcomb := hsorted.and hne
  have hstrict : (sortSims (simsOf cos q b.embs)).Pairwise
      (fun a c => c.1 < a.1 ∨ (a.1 = c.1 ∧ c.2 < a.2)) := by
    refine hcomb.imp ?_
    rintro a c ⟨hge | ⟨heq, hle⟩, hne2⟩
    · exact Or.inl hge
    · exact Or.inr ⟨heq, lt_of_le_of_ne hle (Ne.symm hne2)⟩
  exact hstrict.sublist (List.take_sublist n _)

/-- Counterexample to C1 as stated: two chunks with equal scores come back in
reverse insertion order (`"second"` before `"first"`), not insertion order. -/
theorem c1_tie_order_counterexample :
    simsOf (fun _ _ => 0) [] [[1], [1]] = [(0, 0), (0, 1)] ∧
    (memQuery (fun _ _ => 0)
        ⟨["first", "second"], [[1], [1]], ["t0", "t1"], [default, default]⟩
        [] 2).ids = [["second", "first"]] ∧
    (["second", "first"] : List String) ≠ ["first", "second"] := by
  refine ⟨by decide, by decide, by decide⟩

theorem range_map_getD_two {α β γ δ : Type} (l : List α) (f : α → β) (g : α → γ)
    (mk : β → γ → δ) (d1 : β) (d2 : γ) :
    (List.range (l.map f).length).map
      (fun i => mk ((l.map f).getD i d1) ((l.map g).getD i d2)) =
    l.map (fun x => mk (f x) (g x)) := by
  induction l with
  | nil => simp
  | cons x xs ih =>
    simp only [List.map_cons, List.length_cons, List.range_succ_eq_map, List.map_map,
      List.map_cons]
    refine congrArg₂ List.cons (by simp) ?_
    have : ((fun i => mk ((f x :: xs.map f).getD i d1) ((g x :: xs.map g).getD i d2)) ∘
        Nat.succ) = fun i => mk ((xs.map f).getD i d1) ((xs.map g).getD i d2) := by
      funext i
      simp [List.getD_cons_succ]
    rw [this]
    exact ih

theorem rag_query_eq_map (cos : List ℚ → List ℚ → ℚ) (store : Store) (tid : String)
    (q : List ℚ) (k : Nat) :
    rag_query cos store tid q k = (selectedSims cos (store tid) q k).map
      (fun p => ⟨(store tid).texts.getD p.2 "", (store tid).metas.getD p.2 default⟩) := by
  show (List.range ((selectedSims cos (store tid) q k).map
      (fun p => (store tid).texts.getD p.2 "")).length).map _ = _
  exact range_map_getD_two (selectedSims cos (store tid) q k)
    (fun p => (store tid).texts.getD p.2 "")
    (fun p => (store tid).metas.getD p.2 default) CtxItem.mk "" default

/-- Claim C4: `rag_query` on a topic holding `m` chunks returns `min m k` items
(exactly `m` of them when `m < k`, with no padding and — the selected indices
being distinct — no duplication; the empty list when `m = 0`), every returned
item is a stored chunk of the requested topic's bucket, and the result depends
only on that bucket (no cross-topic leakage). -/
theorem c4_rag_query_bounds (cos : List ℚ → List ℚ → ℚ) (store : Store)
    (tid : String) (q : List ℚ) (k : Nat) (hWF : (store tid).WF) :
    (rag_query cos store tid q k).length = min (store tid).embs.length k ∧
    ((store tid).embs.length < k →
      (rag_query cos store tid q k).length = (store tid).embs.length) ∧
    ((store tid).embs.length = 0 → rag_query cos store tid q k = []) ∧
    ((selectedSims cos (store tid) q k).map Prod.snd).Nodup ∧
    rag_query cos store tid q k = (selectedSims cos (store tid) q k).map
      (fun p => ⟨(store tid).texts.getD p.2 "", (store tid).metas.getD p.2 default⟩) ∧
    (∀ it ∈ rag_query cos store tid q k,
      it.text ∈ (store tid).texts ∧ it.metadata ∈ (store tid).metas) ∧
    (∀ store' : Store, store' tid = store tid →
      rag_query cos store' tid q k = rag_query cos store tid q k) := by
  have heq := rag_query_eq_map cos store tid q k
  have hlen : (rag_query cos store tid q k).length =
      min (store tid).embs.length k := by
    rw [heq, List.length_map, selectedSims_length]
  refine ⟨hlen, ?_, ?_, selectedSims_snd_nodup cos (store tid) q k, heq, ?_, ?_⟩
  · intro hmk; omega
  · intro hm
    have : (rag_query cos store tid q k).length = 0 := by omega
    exact List.eq_nil_of_length_eq_zero this
  · intro it hit
    rw [heq] at hit
    rcases List.mem_map.mp hit with ⟨p, hp, rfl⟩
    have hlt : p.2 < (store tid).embs.length :=
      selectedSims_snd_lt cos (store tid) q k p.2 (List.mem_map_of_mem Prod.snd hp)
    obtain ⟨h1, h2, h3⟩ := hWF
    constructor
    · have hb : p.2 < (store tid).texts.length := by omega
      rw [List.getD_eq_getElem _ _ hb]
      exact List.getElem_mem hb
    · have hb : p.2 < (store tid).metas.length := by omega
      rw [List.getD_eq_getElem _ _ hb]
      exact List.getElem_mem hb
  · intro store' hstore
    simp only [rag_query, hstore]

/-- Witness for C4: a store holding one chunk under `"t"` and queried with
`k = 3` returns exactly one item. -/
theorem c4_rag_query_bounds_witness :
    (Bucket.WF ⟨["i0"], [[1]], ["txt"], [default]⟩) ∧
    (rag_query (fun _ _ => 0)
      (fun _ => ⟨["i0"], [[1]], ["txt"], [default]⟩) "t" [] 3).length = 1 := by
  refine ⟨by decide, ?_⟩
  have h := c4_rag_query_bounds (fun _ _ => 0)
    (fun _ => ⟨["i0"], [[1]], ["txt"], [default]⟩) "t" [] 3 (by decide)
  exact h.2.1 (by decide)

/-! ## Claim C10 : parallel-list invariant of the store -/

theorem upsert_WF {b : Bucket} {c : UpsertCall} (hb : b.WF)
    (hc : c.ids.length = c.embeddings.length ∧
      c.texts.length = c.embeddings.length ∧
      c.metadatas.length = c.embeddings.length) :
    (b.upsert c.texts c.metadatas c.ids c.embeddings).WF := by
  obtain ⟨h1, h2, h3⟩ := hb
  obtain ⟨g1, g2, g3⟩ := hc
  refine ⟨?_, ?_, ?_⟩ <;> simp [Bucket.upsert] <;> omega

theorem applyUpserts_WF {calls : List UpsertCall}
    (h : ∀ c ∈ calls, c.ids.length = c.embeddings.length ∧
      c.texts.length = c.embeddings.length ∧
      c.metadatas.length = c.embeddings.length) :
    ∀ b : Bucket, b.WF → (applyUpserts b calls).WF := by
  induction calls with
  | nil => intro b hb; exact hb
  | cons c cs ih =>
    intro b hb
    have hstep : (b.upsert c.texts c.metadatas c.ids c.embeddings).WF :=
      upsert_WF hb (h c (List.mem_cons_self c cs))
    exact ih (fun d hd => h d (List.mem_cons_of_mem c hd)) _ hstep

/-- Claim C10: after replaying any sequence of `upsert` calls with equal-length
argument lists on a fresh bucket, the four parallel lists have equal length,
and every index selected by `query` (an index into `embs`) is a valid index
into all four lists. -/
theorem c10_store_invariant (calls : List UpsertCall)
    (h : ∀ c ∈ calls, c.ids.length = c.embeddings.length ∧
      c.texts.length = c.embeddings.length ∧
      c.metadatas.length = c.embeddings.length) :
    (applyUpserts emptyBucket calls).WF ∧
    ∀ (cos : List ℚ → List ℚ → ℚ) (q : List ℚ) (n : Nat) (i : Nat),
      i ∈ (selectedSims cos (applyUpserts emptyBucket calls) q n).map Prod.snd →
        i < (applyUpserts emptyBucket calls).ids.length ∧
        i < (applyUpserts emptyBucket calls).texts.length ∧
        i < (applyUpserts emptyBucket calls).metas.length ∧
        i < (applyUpserts emptyBucket calls).embs.length := by
  have hwf : (applyUpserts emptyBucket calls).WF :=
    applyUpserts_WF h emptyBucket ⟨rfl, rfl, rfl⟩
  refine ⟨hwf, ?_⟩
  intro cos q n i hi
  have hlt := selectedSims_snd_lt cos (applyUpserts emptyBucket calls) q n i hi
  obtain ⟨h1, h2, h3⟩ := hwf
  exact ⟨by omega, by omega, by omega, hlt⟩

/-- Witness for C10 on a single well-formed `upsert` call. -/
theorem c10_store_invariant_witness :
    (∀ c ∈ [(⟨["txt"], [default], ["i0"], [[1]]⟩ : UpsertCall)],
      c.ids.length = c.embeddings.length ∧
      c.texts.length = c.embeddings.length ∧
      c.metadatas.length = c.embeddings.length) ∧
    (applyUpserts emptyBucket [⟨["txt"], [default], ["i0"], [[1]]⟩]).WF := by
  refine ⟨by decide, ?_⟩
  exact (c10_store_invariant [⟨["txt"], [default], ["i0"], [[1]]⟩] (by decide)).1

/-! ## Claims C2, C3 : `synthesize_brief` -/

theorem synthesize_brief_eq (cos : List ℚ → List ℚ → ℚ) (store : Store)
    (topic : String) (topicVec : List ℚ) (tid : Option String)
    (chat : String → String → Except String String) :
    synthesize_brief cos store topic topicVec tid chat =
      (chat synthSystem (synthPrompt cos store topic topicVec tid)).map
        (fun c => (c.trim,
          _normalize_ctx (rag_query cos store (topicIdOrDefault tid) topicVec 15))) := by
  unfold synthesize_brief synthPrompt
  cases hc : chat synthSystem
      (synthUser topic
        ((String.intercalate "\n\n"
          ((_normalize_ctx (rag_query cos store (topicIdOrDefault tid) topicVec 15)).map
            NormItem.chunk)).take 12000)) with
  | error e => simp [hc, Except.map]
  | ok c => simp [hc, Except.map]

/-- Counterexample to C3 as stated: with a failing chat model, `synthesize_brief`
does not return normally — the exception propagates out of the function (there
is no `try/except` around the model call in the source). -/
theorem c3_synthesize_raises_counterexample :
    synthesize_brief (fun _ _ => 0) (fun _ => emptyBucket) "topic" [] none
      (fun _ _ => Except.error "boom") = Except.error "boom" ∧
    ∀ out : String × List NormItem,
      synthesize_brief (fun _ _ => 0) (fun _ => emptyBucket) "topic" [] none
        (fun _ _ => Except.error "boom") ≠ Except.ok out := by
  refine ⟨rfl, ?_⟩
  intro out h
  rw [show synthesize_brief (fun _ _ => 0) (fun _ => emptyBucket) "topic" [] none
      (fun _ _ => Except.error "boom") = Except.error "boom" from rfl] at h
  cases h

/-- Claim C3 (amended): a failure of the chat-model call propagates out of
`synthesize_brief` unchanged; only a successful call returns normally, with the
stripped reply text and the normalized retrieved context. -/
theorem c3_synthesize_error_propagation (cos : List ℚ → List ℚ → ℚ) (store : Store)
    (topic : String) (topicVec : List ℚ) (tid : Option String)
    (chat : String → String → Except String String) :
    (∀ e, chat synthSystem (synthPrompt cos store topic topicVec tid) = Except.error e →
      synthesize_brief cos store topic topicVec tid chat = Except.error e) ∧
    (∀ c, chat synthSystem (synthPrompt cos store topic topicVec tid) = Except.ok c →
      synthesize_brief cos store topic topicVec tid chat = Except.ok (c.trim,
        _normalize_ctx (rag_query cos store (topicIdOrDefault tid) topicVec 15))) := by
  constructor
  · intro e he
    rw [synthesize_brief_eq, he]
    rfl
  · intro c hc
    rw [synthesize_brief_eq, hc]
    rfl

/-- Witness for C3 (amended), on a chat oracle that always fails. -/
theorem c3_synthesize_error_propagation_witness :
    ((fun _ _ => Except.error "down") synthSystem
        (synthPrompt (fun _ _ => 0) (fun _ => emptyBucket) "t" [] none) =
      (Except.error "down" : Except String String)) ∧
    synthesize_brief (fun _ _ => 0) (fun _ => emptyBucket) "t" [] none
      (fun _ _ => Except.error "down") = Except.error "down" :=
  ⟨rfl, (c3_synthesize_error_propagation (fun _ _ => 0) (fun _ => emptyBucket)
    "t" [] none (fun _ _ => Except.error "down")).1 "down" rfl⟩

/-- Counterexample to C2 as stated: six chunks sharing one url yield six
citation entries — neither url-deduplicated nor capped at 5. -/
theorem c2_citations_counterexample :
    (citationsOf (synthesize_brief (fun _ _ => 0)
      (fun _ => ⟨["a", "b", "c", "d", "e", "f"],
        [[1], [1], [1], [1], [1], [1]],
        ["t", "t", "t", "t", "t", "t"],
        List.replicate 6 ⟨"u", "d", 0⟩⟩) "topic" [] (some "tid")
      (fun _ _ => Except.ok "brief"))).length = 6 ∧
    ¬ ((citationsOf (synthesize_brief (fun _ _ => 0)
      (fun _ => ⟨["a", "b", "c", "d", "e", "f"],
        [[1], [1], [1], [1], [1], [1]],
        ["t", "t", "t", "t", "t", "t"],
        List.replicate 6 ⟨"u", "d", 0⟩⟩) "topic" [] (some "tid")
      (fun _ _ => Except.ok "brief"))).length ≤ 5) ∧
    ((citationsOf (synthesize_brief (fun _ _ => 0)
      (fun _ => ⟨["a", "b", "c", "d", "e", "f"],
        [[1], [1], [1], [1], [1], [1]],
        ["t", "t", "t", "t", "t", "t"],
        List.replicate 6 ⟨"u", "d", 0⟩⟩) "topic" [] (some "tid")
      (fun _ _ => Except.ok "brief"))).map (fun c => c.meta.url)) =
      ["u", "u", "u", "u", "u", "u"] := by
  refine ⟨by decide, by decide, by decide⟩

/-- Claim C2 (amended): when the model call succeeds, the citations list is
exactly the normalized retrieved context in retrieval (score) order — one entry
per retrieved chunk, with no url de-duplication and no cap at 5; its length is
`min m 15` for a topic holding `m` chunks. -/
theorem c2_citations_amended (cos : List ℚ → List ℚ → ℚ) (store : Store)
    (topic : String) (topicVec : List ℚ) (tid : Option String)
    (chat : String → String → Except String String) (c : String)
    (hc : chat synthSystem (synthPrompt cos store topic topicVec tid) = Except.ok c) :
    citationsOf (synthesize_brief cos store topic topicVec tid chat) =
      _normalize_ctx (rag_query cos store (topicIdOrDefault tid) topicVec 15) ∧
    (citationsOf (synthesize_brief cos store topic topicVec tid chat)).length =
      min (store (topicIdOrDefault tid)).embs.length 15 := by
  have h := (c3_synthesize_error_propagation cos store topic topicVec tid chat).2 c hc
  constructor
  · rw [h]; rfl
  · rw [h]
    show (_normalize_ctx (rag_query cos store (topicIdOrDefault tid) topicVec 15)).length = _
    unfold _normalize_ctx
    rw [List.length_map, rag_query_eq_map, List.length_map, selectedSims_length]

/-- Witness for C2 (amended) on a two-chunk store. -/
theorem c2_citations_amended_witness :
    ((fun _ _ => Except.ok "brief") synthSystem
        (synthPrompt (fun _ _ => 0)
          (fun _ => ⟨["a", "b"], [[1], [2]], ["t0", "t1"], [default, default]⟩)
          "t" [] none) = (Except.ok "brief" : Except String String)) ∧
    (citationsOf (synthesize_brief (fun _ _ => 0)
      (fun _ => ⟨["a", "b"], [[1], [2]], ["t0", "t1"], [default, default]⟩)
      "t" [] none (fun _ _ => Except.ok "brief"))).length =
      min (((fun _ => (⟨["a", "b"], [[1], [2]], ["t0", "t1"],
        [default, default]⟩ : Bucket)) "default").embs.length) 15 :=
  ⟨rfl, (c2_citations_amended (fun _ _ => 0)
    (fun _ => ⟨["a", "b"], [[1], [2]], ["t0", "t1"], [default, default]⟩)
    "t" [] none (fun _ _ => Except.ok "brief") "brief" rfl).2⟩

/-! ## Claims C7, C8 : the quiz generator — infrastructure -/

theorem pyIndex_lt_length {α : Type} [DecidableEq α] {x : α} :
    ∀ {l : List α}, x ∈ l → pyIndex x l < l.length := by
  intro l
  induction l with
  | nil => intro h; cases h
  | cons y ys ih =>
    intro h
    by_cases hy : y = x
    · simp [pyIndex, hy]
    · rcases List.mem_cons.mp h with rfl | hmem
      · exact absurd rfl hy
      · simp only [pyIndex, if_neg hy, List.length_cons]
        have := ih hmem
        omega

theorem getD_pyIndex {α : Type} [DecidableEq α] (d : α) {x : α} :
    ∀ {l : List α}, x ∈ l → l.getD (pyIndex x l) d = x := by
  intro l
  induction l with
  | nil => intro h; cases h
  | cons y ys ih =>
    intro h
    by_cases hy : y = x
    · simp [pyIndex, hy]
    · rcases List.mem_cons.mp h with rfl | hmem
      · exact absurd rfl hy
      · simp only [pyIndex, if_neg hy]
        rw [show 1 + pyIndex x ys = pyIndex x ys + 1 from Nat.add_comm _ _]
        simpa using ih hmem

theorem dedupFirst_eq_self {α : Type} [DecidableEq α] :
    ∀ (seen l : List α), (∀ x ∈ l, x ∉ seen) → l.Nodup → dedupFirst seen l = l := by
  intro seen l
  induction l generalizing seen with
  | nil => intro _ _; rfl
  | cons x xs ih =>
    intro hfresh hnd
    have hx : x ∉ seen := hfresh x (List.mem_cons_self x xs)
    rw [dedupFirst, if_neg hx]
    refine congrArg (List.cons x) (ih (x :: seen) ?_ (List.Nodup.of_cons hnd))
    intro y hy
    intro hmem
    rcases List.mem_cons.mp hmem with rfl | hseen
    · exact (List.nodup_cons.mp hnd).1 hy
    · exact hfresh y (List.mem_cons_of_mem x hy) hseen

theorem take3_length_le : ∀ (pool acc : List (List Char)),
    acc.length ≤ 2 → (take3 pool acc).length ≤ 3 := by
  intro pool
  induction pool with
  | nil => intro acc h; simp only [take3]; omega
  | cons k ks ih =>
    intro acc h
    rw [take3]
    by_cases hk : k ∈ acc
    · simp only [if_pos hk]
      rw [if_neg (by omega)]
      exact ih acc h
    · simp only [if_neg hk]
      by_cases h3 : (acc ++ [k]).length = 3
      · rw [if_pos h3]; omega
      · rw [if_neg h3]
        refine ih (acc ++ [k]) ?_
        simp only [List.length_append, List.length_singleton] at h3 ⊢
        omega

/-- The five suffix variants of a word are pairwise distinct. -/
theorem variants_nodup (correct : List Char) :
    ((List.finRange 5).map (fun v : Fin 5 => correct ++ SUFFIXES.getD v [])).Nodup := by
  rw [List.nodup_map_iff_inj_on (List.nodup_finRange 5)]
  intro a _ b _ hab
  have hsuf : SUFFIXES.getD a [] = SUFFIXES.getD b [] := List.append_cancel_left hab
  fin_cases a <;> fin_cases b <;> first | rfl | (exfalso; revert hsuf; decide)

/-- Under a choice stream that produces every suffix inside the fuel window,
the variant loop fills the distractor list to exactly 3 entries. -/
theorem pickVariants_length (correct : List Char) (rnd : Nat → Fin 5) :
    ∀ (fuel t : Nat) (acc : List (List Char)), acc.length ≤ 3 →
      (∀ v : Fin 5, (correct ++ SUFFIXES.getD v []) ∉ acc →
        ∃ τ, t ≤ τ ∧ τ < t + fuel ∧ rnd τ = v) →
      (pickVariants correct rnd fuel t acc).length = 3 := by
  intro fuel
  induction fuel with
  | zero =>
    intro t acc hle hcov
    rcases Nat.lt_or_ge acc.length 3 with hlt | hge
    · exfalso
      have hfree : ∃ v : Fin 5, (correct ++ SUFFIXES.getD v []) ∉ acc := by
        by_contra hall
        push_neg at hall
        have hsub : ((List.finRange 5).map
            (fun v : Fin 5 => correct ++ SUFFIXES.getD v [])) ⊆ acc := by
          intro y hy
          rcases List.mem_map.mp hy with ⟨v, _, rfl⟩
          exact hall v
        have := (List.subperm_of_subset (variants_nodup correct) hsub).length_le
        simp at this
        omega
      rcases hfree with ⟨v, hv⟩
      rcases hcov v hv with ⟨τ, h1, h2, _⟩
      omega
    · have : acc.length = 3 := by omega
      simp [pickVariants, this]
  | succ f ih =>
    intro t acc hle hcov
    rw [pickVariants]
    by_cases h3 : 3 ≤ acc.length
    · rw [if_pos h3]; omega
    · rw [if_neg h3]
      simp only []
      by_cases hmem : (correct ++ SUFFIXES.getD (rnd t) []) ∈ acc
      · rw [if_pos hmem]
        refine ih (t + 1) acc hle ?_
        intro v hv
        rcases hcov v hv with ⟨τ, h1, h2, h3'⟩
        have hτ : τ ≠ t := by
          intro he; subst he; rw [h3'] at hmem; exact hv hmem
        exact ⟨τ, by omega, by omega, h3'⟩
      · rw [if_neg hmem]
        refine ih (t + 1) (acc ++ [correct ++ SUFFIXES.getD (rnd t) []]) (by simp; omega) ?_
        intro v hv
        have hvacc : (correct ++ SUFFIXES.getD v []) ∉ acc := by
          intro hc; exact hv (List.mem_append_left _ hc)
        rcases hcov v hvacc with ⟨τ, h1, h2, h3'⟩
        have hτ : τ ≠ t := by
          intro he; subst he
          rw [h3'] at hv
          exact hv (List.mem_append_right _ (List.mem_singleton_self _))
        exact ⟨τ, by omega, by omega, h3'⟩

theorem clozeExpl_inj {w w' : List Char} (h : clozeExpl w = clozeExpl w') : w = w' := by
  unfold clozeExpl at h
  simp only [List.append_assoc] at h
  exact List.append_cancel_right (List.append_cancel_left (List.append_cancel_left h))

theorem presenceExpl_inj {w w' : List Char} (h : presenceExpl w = presenceExpl w') :
    w = w' := by
  unfold presenceExpl at h
  simp only [List.append_assoc] at h
  exact List.append_cancel_right (List.append_cancel_left h)

theorem clozeExpl_ne_presenceExpl (w w' : List Char) :
    clozeExpl w ≠ presenceExpl w' := by
  unfold clozeExpl presenceExpl
  intro h
  have : ('T' : Char) = apost := by
    have := congrArg (fun l => l.headD ' ') h
    simpa using this
  revert this
  decide

theorem insCountDesc_perm (x : List Char × Nat) :
    ∀ l : List (List Char × Nat), List.Perm (insCountDesc x l) (x :: l) := by
  intro l
  induction l with
  | nil => rfl
  | cons y ys ih =>
    rw [insCountDesc]
    by_cases hy : y.2 ≤ x.2
    · rw [if_pos hy]
    · rw [if_neg hy]
      exact (ih.cons y).trans (List.Perm.swap x y ys)

theorem sortCountDesc_perm :
    ∀ l : List (List Char × Nat), List.Perm (sortCountDesc l) l := by
  intro l
  induction l with
  | nil => rfl
  | cons x xs ih =>
    rw [sortCountDesc]
    exact (insCountDesc_perm x (sortCountDesc xs)).trans (ih.cons x)

theorem bumpCount_fst (w : List Char) :
    ∀ l : List (List Char × Nat), (bumpCount w l).map Prod.fst =
      if w ∈ l.map Prod.fst then l.map Prod.fst else l.map Prod.fst ++ [w] := by
  intro l
  induction l with
  | nil => simp [bumpCount]
  | cons p ps ih =>
    rcases p with ⟨x, n⟩
    rw [bumpCount]
    by_cases hx : x = w
    · subst hx
      simp [List.mem_cons]
    · rw [if_neg hx]
      simp only [List.map_cons, ih]
      by_cases hw : w ∈ ps.map Prod.fst
      · rw [if_pos hw, if_pos (List.mem_cons_of_mem _ hw)]
      · rw [if_neg hw, if_neg ?_]
        · simp
        · intro hc
          rcases List.mem_cons.mp hc with he | hc'
          · exact hx he.symm
          · exact hw hc'

theorem tally_fst_nodup (ws : List (List Char)) :
    ((tally ws).map Prod.fst).Nodup := by
  unfold tally
  suffices h : ∀ acc : List (List Char × Nat), (acc.map Prod.fst).Nodup →
      ((ws.foldl (fun acc w => bumpCount w acc) acc).map Prod.fst).Nodup by
    exact h [] (by simp)
  induction ws with
  | nil => intro acc hacc; simpa using hacc
  | cons w rest ih =>
    intro acc hacc
    rw [List.foldl_cons]
    refine ih (bumpCount w acc) ?_
    rw [bumpCount_fst]
    by_cases hw : w ∈ acc.map Prod.fst
    · rw [if_pos hw]; exact hacc
    · rw [if_neg hw]
      refine List.Nodup.append hacc (List.nodup_singleton w) ?_
      intro a ha hb
      rw [List.mem_singleton] at hb
      subst hb
      exact hw ha

theorem top_keywords_nodup (text : List Char) (k : Nat) :
    (_top_keywords text k).Nodup := by
  show (((sortCountDesc (tally ((findWords (text.map Char.toLower)).filter
      (fun w => w ∉ STOP)))).take k).map Prod.fst).Nodup
  have hperm : List.Perm (sortCountDesc (tally ((findWords (text.map Char.toLower)).filter
      (fun w => w ∉ STOP)))) (tally ((findWords (text.map Char.toLower)).filter
      (fun w => w ∉ STOP))) := sortCountDesc_perm _
  have hnd : ((sortCountDesc (tally ((findWords (text.map Char.toLower)).filter
      (fun w => w ∉ STOP)))).map Prod.fst).Nodup := by
    rw [(hperm.map Prod.fst).nodup_iff]
    exact tally_fst_nodup _
  rw [List.map_take]
  exact hnd.sublist (List.take_sublist k _)

/-- Behaviour of the cloze sentence loop: under permutation-valid option
shuffles and a covering choice stream, it emits at most `n` structurally valid
items whose explanations name pairwise-distinct answer words drawn from the
cloze template. -/
theorem clozeGo_spec (R : RandOracle) (keys : List (List Char)) (n : Nat)
    (hopts : ∀ j l, List.Perm (R.shuffleOpts j l) l)
    (hcov : ∀ (j : Nat) (v : Fin 5), ∃ τ, τ < R.fuel ∧ R.choice j τ = v) :
    ∀ (sents used : List (List Char)) (out : List QItem),
      out.length < n →
      (∀ it ∈ out, goodItem it) →
      (∀ it ∈ out, ∃ w, w ∈ used ∧ it.explanation = clozeExpl w) →
      ((out.map QItem.explanation).Nodup) →
      (clozeGo R keys n sents used out).length ≤ n ∧
      (∀ it ∈ clozeGo R keys n sents used out, goodItem it) ∧
      (∀ it ∈ clozeGo R keys n sents used out, ∃ w, it.explanation = clozeExpl w) ∧
      ((clozeGo R keys n sents used out).map QItem.explanation).Nodup := by
  intro sents
  induction sents with
  | nil =>
    intro used out hlen hgood hexpl hnd
    simp only [clozeGo]
    exact ⟨Nat.le_of_lt hlen, hgood,
      fun it hit => (hexpl it hit).imp (fun w hw => hw.2), hnd⟩
  | cons s ss ih =>
    intro used out hlen hgood hexpl hnd
    rw [clozeGo]
    cases hcand : keys.filter
        (fun k => hasSub k (s.map Char.toLower) ∧ 4 ≤ k.length ∧ k ∉ used) with
    | nil =>
      exact ih used out hlen hgood hexpl hnd
    | cons correct cs =>
      dsimp only
      have hcm : correct ∈ keys.filter
          (fun k => hasSub k (s.map Char.toLower) ∧ 4 ≤ k.length ∧ k ∉ used) := by
        rw [hcand]; exact List.mem_cons_self _ _
      have hpred := (List.mem_filter.mp hcm).2
      have hnotused : correct ∉ used := by
        rcases of_decide_eq_true hpred with ⟨_, _, h⟩
        exact h
      set distractors := pickVariants correct (R.choice out.length) R.fuel 0
        (take3 (R.shufflePool out.length
          (keys.filter (fun k => k ≠ correct ∧ natAbsDiff k.length correct.length ≤ 3))) [])
        with hdistr
      have hdlen : distractors.length = 3 := by
        rw [hdistr]
        refine pickVariants_length correct (R.choice out.length) R.fuel 0 _
          (take3_length_le _ [] (by simp)) ?_
        intro v _
        rcases hcov out.length v with ⟨τ, hτ, he⟩
        exact ⟨τ, Nat.zero_le τ, by omega, he⟩
      set options := R.shuffleOpts out.length (correct :: distractors) with hoptions
      have hop : List.Perm options (correct :: distractors) := hopts out.length _
      have holen : options.length = 4 := by
        rw [hop.length_eq, List.length_cons, hdlen]
      have hcin : correct ∈ options := hop.mem_iff.mpr (List.mem_cons_self _ _)
      have hidx : pyIndex correct options < 4 := holen ▸ pyIndex_lt_length hcin
      have hgetD : options.getD (pyIndex correct options) [] = correct :=
        getD_pyIndex [] hcin
      set item : QItem :=
        ⟨replaceFirstCI correct s, options, pyIndex correct options, clozeExpl correct⟩
        with hitem
      have hgooditem : goodItem item := ⟨holen, hidx, correct, hgetD, Or.inl rfl⟩
      have hgood' : ∀ it ∈ out ++ [item], goodItem it := by
        intro it hit
        rcases List.mem_append.mp hit with h | h
        · exact hgood it h
        · rw [List.mem_singleton.mp h]; exact hgooditem
      have hexpl' : ∀ it ∈ out ++ [item],
          ∃ w, w ∈ used ++ [correct] ∧ it.explanation = clozeExpl w := by
        intro it hit
        rcases List.mem_append.mp hit with h | h
        · rcases hexpl it h with ⟨w, hw1, hw2⟩
          exact ⟨w, List.mem_append_left _ hw1, hw2⟩
        · rw [List.mem_singleton.mp h]
          exact ⟨correct, List.mem_append_right _ (List.mem_singleton_self _), rfl⟩
      have hnd' : (((out ++ [item]).map QItem.explanation)).Nodup := by
        rw [List.map_append]
        refine List.Nodup.append hnd (by simp) ?_
        intro e he hes
        rw [List.map_singleton, List.mem_singleton] at hes
        subst hes
        rcases List.mem_map.mp he with ⟨it, hit, hexpleq⟩
        rcases hexpl it hit with ⟨w, hw1, hw2⟩
        rw [hitem] at hexpleq
        simp only at hexpleq
        have : clozeExpl w = clozeExpl correct := by rw [← hw2, hexpleq]
        exact hnotused (clozeExpl_inj this ▸ hw1)
      by_cases hstop : n ≤ (out ++ [item]).length
      · rw [if_pos hstop]
        refine ⟨?_, hgood', fun it hit => (hexpl' it hit).imp (fun w hw => hw.2), hnd'⟩
        simp only [List.length_append, List.length_singleton]
        omega
      · rw [if_neg hstop]
        refine ih (used ++ [correct]) (out ++ [item]) ?_ hgood' hexpl' hnd'
        simp only [List.length_append, List.length_singleton] at hstop ⊢
        omega

/-- Behaviour of the presence loop: with a key pool of at least `4 * shortfall`
distinct keys it emits exactly the missing number of items, all structurally
valid, with pairwise-distinct explanations naming the presence template.
Stated with an explicit bound `N` on the key-list length to drive the
induction; instantiate `N := ks.length`. -/
theorem presenceGo_spec (R : RandOracle) (needed : Nat)
    (hopts2 : ∀ j l, List.Perm (R.shuffleOpts2 j l) l) :
    ∀ (N : Nat) (ks : List (List Char)) (out : List QItem),
      ks.length ≤ N →
      out.length ≤ needed →
      4 * (needed - out.length) ≤ ks.length →
      ks.Nodup →
      (∀ it ∈ out, goodItem it) →
      ((out.map QItem.explanation).Nodup) →
      (∀ it ∈ out, ∀ k ∈ ks, it.explanation ≠ presenceExpl k) →
      (presenceGo R needed ks out).length = needed ∧
      (∀ it ∈ presenceGo R needed ks out, goodItem it) ∧
      ((presenceGo R needed ks out).map QItem.explanation).Nodup ∧
      (∀ it ∈ presenceGo R needed ks out,
        it ∈ out ∨ ∃ w, it.explanation = presenceExpl w) := by
  intro N
  induction N with
  | zero =>
    intro ks out hN hle hks hnd hgood hende _
    have hz : ks = [] := List.eq_nil_of_length_eq_zero (by omega)
    subst hz
    simp only [presenceGo]
    have : needed - out.length = 0 := by simp at hks; omega
    exact ⟨by omega, hgood, hende, fun it hit => Or.inl hit⟩
  | succ N ih =>
    intro ks out hN hle hks hnd hgood hende hfresh
    rcases ks with _ | ⟨k0, _ | ⟨k1, _ | ⟨k2, _ | ⟨k3, rest⟩⟩⟩⟩
    · simp only [presenceGo]
      have : needed - out.length = 0 := by simp at hks; omega
      exact ⟨by omega, hgood, hende, fun it hit => Or.inl hit⟩
    · simp only [presenceGo]
      have : needed - out.length = 0 := by simp at hks; omega
      exact ⟨by omega, hgood, hende, fun it hit => Or.inl hit⟩
    · simp only [presenceGo]
      have : needed - out.length = 0 := by simp at hks; omega
      exact ⟨by omega, hgood, hende, fun it hit => Or.inl hit⟩
    · simp only [presenceGo]
      have : needed - out.length = 0 := by simp at hks; omega
      exact ⟨by omega, hgood, hende, fun it hit => Or.inl hit⟩
    · rw [presenceGo]
      by_cases hout : out.length < needed
      · rw [if_pos hout]
        set options := R.shuffleOpts2 out.length (k0 :: [k1, k2, k3]) with hoptions
        have hop : List.Perm options (k0 :: [k1, k2, k3]) := hopts2 out.length _
        have holen : options.length = 4 := by rw [hop.length_eq]; rfl
        have hcin : k0 ∈ options := hop.mem_iff.mpr (List.mem_cons_self _ _)
        have hidx : pyIndex k0 options < 4 := holen ▸ pyIndex_lt_length hcin
        have hgetD : options.getD (pyIndex k0 options) [] = k0 := getD_pyIndex [] hcin
        set item : QItem := ⟨presenceStem, options, pyIndex k0 options, presenceExpl k0⟩
          with hitem
        have hgooditem : goodItem item := ⟨holen, hidx, k0, hgetD, Or.inr rfl⟩
        have hrest4 : ∀ k ∈ rest, k ∈ k0 :: k1 :: k2 :: k3 :: rest := by
          intro k hk
          exact List.mem_cons_of_mem _ (List.mem_cons_of_mem _
            (List.mem_cons_of_mem _ (List.mem_cons_of_mem _ hk)))
        have hndrest : rest.Nodup := by
          have := List.nodup_cons.mp hnd
          have := List.nodup_cons.mp this.2
          have := List.nodup_cons.mp this.2
          have := List.nodup_cons.mp this.2
          exact this.2
        obtain ⟨r1, r2, r3, r4⟩ := ih rest (out ++ [item])
          (by simp only [List.length_cons] at hN; omega)
          (by simp only [List.length_append, List.length_singleton]; omega)
          (by simp only [List.length_append, List.length_singleton,
                List.length_cons] at hks ⊢
              omega)
          hndrest
          (by intro it hit
              rcases List.mem_append.mp hit with h | h
              · exact hgood it h
              · rw [List.mem_singleton.mp h]; exact hgooditem)
          (by rw [List.map_append]
              refine List.Nodup.append hende (by simp) ?_
              intro e he hes
              rw [List.map_singleton, List.mem_singleton] at hes
              subst hes
              rcases List.mem_map.mp he with ⟨it, hit, hexpleq⟩
              exact hfresh it hit k0 (List.mem_cons_self _ _) (by rw [hexpleq, hitem]))
          (by intro it hit k hk
              rcases List.mem_append.mp hit with h | h
              · exact hfresh it h k (hrest4 k hk)
              · rw [List.mem_singleton.mp h, hitem]
                simp only
                intro hcon
                have hk0 : k0 = k := presenceExpl_inj hcon
                subst hk0
                exact (List.nodup_cons.mp hnd).1 (List.mem_cons_of_mem _
                  (List.mem_cons_of_mem _ (List.mem_cons_of_mem _ hk))))
        refine ⟨r1, r2, r3, ?_⟩
        intro it hit
        rcases r4 it hit with h | h
        · rcases List.mem_append.mp h with h2 | h2
          · exact Or.inl h2
          · rw [List.mem_singleton.mp h2, hitem]
            exact Or.inr ⟨k0, rfl⟩
        · exact Or.inr h
      · rw [if_neg hout]
        have : out.length = needed := by omega
        exact ⟨this, hgood, hende, fun it hit => Or.inl hit⟩

theorem stemGuard_length (qs : List QItem) : (stemGuard qs).length = qs.length := by
  unfold stemGuard
  by_cases h : distinctStems qs = 1
  · rw [if_pos h]
    rw [List.mapIdx_eq_enum_map, List.length_map, List.enum_length]
  · rw [if_neg h]

theorem stemGuard_map_explanation (qs : List QItem) :
    (stemGuard qs).map QItem.explanation = qs.map QItem.explanation := by
  unfold stemGuard
  by_cases h : distinctStems qs = 1
  · rw [if_pos h, List.mapIdx_eq_enum_map, List.map_map]
    have : (QItem.explanation ∘ Function.uncurry fun i q =>
        { q with q := replaceAll BLANK (numberedBlank i) q.q }) =
        (QItem.explanation ∘ Prod.snd) := by
      funext p
      rcases p with ⟨i, q⟩
      rfl
    rw [this, ← List.map_map, List.enum_map_snd]
  · rw [if_neg h]

theorem stemGuard_mem_shape (qs : List QItem) :
    ∀ it' ∈ stemGuard qs, ∃ it ∈ qs, it'.options = it.options ∧
      it'.answer_index = it.answer_index ∧ it'.explanation = it.explanation := by
  intro it' hit'
  unfold stemGuard at hit'
  by_cases h : distinctStems qs = 1
  · rw [if_pos h, List.mapIdx_eq_enum_map] at hit'
    rcases List.mem_map.mp hit' with ⟨⟨i, a⟩, hmem, rfl⟩
    exact ⟨a, List.snd_mem_of_mem_enum hmem, rfl, rfl, rfl⟩
  · rw [if_neg h] at hit'
    exact ⟨it', hit', rfl, rfl, rfl⟩

/-- Claim C7 (amended): with no model credential, permutation-valid shuffles and
a suffix-covering choice stream, `make_quiz` on a brief with at least 10
qualifying sentences and at least 20 length-≥4 words among its top-60 keywords
returns exactly 5 pairwise-distinct structurally valid items (4 options each,
answer index in range, the answered option being the item's correct term). -/
theorem c7_make_quiz_fallback (R : RandOracle) (resp : Option (List QItem))
    (brief : List Char)
    (hopts : ∀ j l, List.Perm (R.shuffleOpts j l) l)
    (hopts2 : ∀ j l, List.Perm (R.shuffleOpts2 j l) l)
    (hcov : ∀ (j : Nat) (v : Fin 5), ∃ τ, τ < R.fuel ∧ R.choice j τ = v)
    (_hsents : 10 ≤ (_sentences (_clean brief)).length)
    (hkeys : 20 ≤ ((_top_keywords (_clean brief) 60).filter
      (fun k => 4 ≤ k.length)).length) :
    (make_quiz R none resp brief 5).length = 5 ∧
    (∀ it ∈ make_quiz R none resp brief 5, goodItem it) ∧
    (make_quiz R none resp brief 5).Nodup := by
  -- cloze-tier facts, then made opaque
  obtain ⟨c1, c2, c3, c4⟩ := clozeGo_spec R (_top_keywords (_clean brief) 60) 5
    hopts hcov (R.shuffleSents (_sentences (_clean brief))) [] []
    (by norm_num) (by simp) (by simp) (by simp)
  have hCdef : _cloze_from_brief R brief 5 = clozeGo R (_top_keywords (_clean brief) 60)
      5 (R.shuffleSents (_sentences (_clean brief))) [] [] := rfl
  rw [← hCdef] at c1 c2 c3 c4
  -- presence-tier equation, then keys made opaque
  have hkn : ((_top_keywords (_clean brief) 60).filter
      (fun k => 4 ≤ k.length)).Nodup :=
    (top_keywords_nodup (_clean brief) 60).filter _
  have hPdefAll : ∀ nn, _presence_from_brief R brief nn = presenceGo R nn
      ((_top_keywords (_clean brief) 60).filter (fun k => 4 ≤ k.length)) [] :=
    fun nn => rfl
  generalize hg : ((_top_keywords (_clean brief) 60).filter
      (fun k => 4 ≤ k.length)) = keys4 at hkeys hkn hPdefAll
  generalize hCg : _cloze_from_brief R brief 5 = C at c1 c2 c3 c4
  set P := if C.length < 5 then _presence_from_brief R brief (5 - C.length) else []
    with hP
  have hPfacts : (C ++ P).length = 5 ∧ (∀ it ∈ P, goodItem it) ∧
      (∀ it ∈ P, ∃ w, it.explanation = presenceExpl w) ∧
      ((P.map QItem.explanation)).Nodup := by
    by_cases hlt : C.length < 5
    · have hPdef : P = presenceGo R (5 - C.length) keys4 [] := by
        rw [hP, if_pos hlt, hPdefAll]
      obtain ⟨p1, p2, p3, p4⟩ := presenceGo_spec R (5 - C.length) hopts2
        keys4.length keys4 []
        le_rfl (Nat.zero_le _) (by simp only [List.length_nil, Nat.sub_zero]; omega)
        hkn (by simp) (by simp) (by simp)
      rw [← hPdef] at p1 p2 p3 p4
      refine ⟨?_, p2, ?_, p3⟩
      · rw [List.length_append, p1]; omega
      · intro it hit
        rcases p4 it hit with h | h
        · cases h
        · exact h
    · have hPdef : P = [] := by rw [hP, if_neg hlt]
      have hc5 : C.length = 5 := by omega
      rw [hPdef]
      exact ⟨by simp [hc5], by simp, by simp, by simp⟩
  obtain ⟨hlen5, hPgood, hPexpl, hPnd⟩ := hPfacts
  have hexplnd : ((C ++ P).map QItem.explanation).Nodup := by
    rw [List.map_append]
    refine List.Nodup.append c4 hPnd ?_
    intro e heC heP
    rcases List.mem_map.mp heC with ⟨it, hit, rfl⟩
    rcases List.mem_map.mp heP with ⟨it2, hit2, heq⟩
    rcases c3 it hit with ⟨w, hw⟩
    rcases hPexpl it2 hit2 with ⟨w2, hw2⟩
    rw [hw2] at heq
    rw [hw] at heq
    exact clozeExpl_ne_presenceExpl w w2 heq.symm
  have hqs3nd : (C ++ P).Nodup := List.Nodup.of_map _ hexplnd
  have hgoodall : ∀ it ∈ C ++ P, goodItem it := by
    intro it hit
    rcases List.mem_append.mp hit with h | h
    · exact c2 it h
    · exact hPgood it h
  have hpre : make_quiz_pre R none resp brief 5 = C ++ P := by
    unfold make_quiz_pre
    have hq1 : _llm_quiz none resp 5 = [] := rfl
    rw [hq1]
    simp only [List.length_nil, List.nil_append, Nat.sub_zero]
    rw [if_pos (by norm_num : (0 : Nat) < 5), hCg]
    have hbody : (if C.length < 5 then C ++ _presence_from_brief R brief (5 - C.length)
        else C) = C ++ P := by
      by_cases hlt : C.length < 5
      · rw [if_pos hlt, hP, if_pos hlt]
      · rw [if_neg hlt, hP, if_neg hlt, List.append_nil]
    rw [hbody]
    have huniq : _json_unique (C ++ P) = C ++ P :=
      dedupFirst_eq_self [] (C ++ P) (by simp) hqs3nd
    rw [huniq]
    exact List.take_of_length_le (by omega)
  have hmq : make_quiz R none resp brief 5 = stemGuard (C ++ P) := by
    unfold make_quiz
    rw [hpre]
  rw [hmq]
  refine ⟨by rw [stemGuard_length]; exact hlen5, ?_, ?_⟩
  · intro it2 hit2
    rcases stemGuard_mem_shape (C ++ P) it2 hit2 with ⟨it, hit, ho, ha, he⟩
    rcases hgoodall it hit with ⟨g1, g2, w, g3, g4⟩
    exact ⟨ho ▸ g1, ha ▸ g2, w, by rw [ho, ha]; exact g3, by rw [he]; exact g4⟩
  · refine List.Nodup.of_map QItem.explanation ?_
    rw [stemGuard_map_explanation]
    exact hexplnd

set_option maxRecDepth 40000 in
/-- Counterexample to C7 as stated: a brief with 10 six-word sentences and 20
distinct non-stopword keywords — all of length 3, below the length-4 bar of
both fallback tiers — makes `make_quiz` (no credential) return no items at all
instead of 5. -/
theorem c7_make_quiz_counterexample :
    10 ≤ (_sentences (_clean "Fox bat cat dog eel fig. Gnu hat ink jug kit log. Map nib oak pig qat rat. Sow tub fox bat cat dog. Eel fig gnu hat ink jug. Kit log map nib oak pig. Qat rat sow tub fox bat. Cat dog eel fig gnu hat. Ink jug kit log map nib. Oak pig qat rat sow tub.".toList)).length ∧
    20 ≤ (tally ((findWords ((_clean "Fox bat cat dog eel fig. Gnu hat ink jug kit log. Map nib oak pig qat rat. Sow tub fox bat cat dog. Eel fig gnu hat ink jug. Kit log map nib oak pig. Qat rat sow tub fox bat. Cat dog eel fig gnu hat. Ink jug kit log map nib. Oak pig qat rat sow tub.".toList).map Char.toLower)).filter
      (fun w => w ∉ STOP))).length ∧
    make_quiz ⟨fun l => l, fun _ l => l, fun _ l => l, fun _ l => l,
        fun _ t => ⟨t % 5, Nat.mod_lt t (by norm_num)⟩, 5⟩ none none
      "Fox bat cat dog eel fig. Gnu hat ink jug kit log. Map nib oak pig qat rat. Sow tub fox bat cat dog. Eel fig gnu hat ink jug. Kit log map nib oak pig. Qat rat sow tub fox bat. Cat dog eel fig gnu hat. Ink jug kit log map nib. Oak pig qat rat sow tub.".toList 5 = [] ∧
    (make_quiz ⟨fun l => l, fun _ l => l, fun _ l => l, fun _ l => l,
        fun _ t => ⟨t % 5, Nat.mod_lt t (by norm_num)⟩, 5⟩ none none
      "Fox bat cat dog eel fig. Gnu hat ink jug kit log. Map nib oak pig qat rat. Sow tub fox bat cat dog. Eel fig gnu hat ink jug. Kit log map nib oak pig. Qat rat sow tub fox bat. Cat dog eel fig gnu hat. Ink jug kit log map nib. Oak pig qat rat sow tub.".toList 5).length ≠ 5 := by
  refine ⟨by decide, by decide, by decide, by decide⟩

set_option maxRecDepth 40000 in
/-- Witness for C7 (amended) on a brief of 10 six-word sentences built from 20
distinct five-letter words, with the identity shuffles and the cycling choice
stream. -/
theorem c7_make_quiz_fallback_witness :
    10 ≤ (_sentences (_clean "Amber blaze cedar dunes ember flint. Grove haven ivory jetty knoll lodge. Maple noble ocean pearl quilt ridge. Stone trail amber blaze cedar dunes. Ember flint grove haven ivory jetty. Knoll lodge maple noble ocean pearl. Quilt ridge stone trail amber blaze. Cedar dunes ember flint grove haven. Ivory jetty knoll lodge maple noble. Ocean pearl quilt ridge stone trail.".toList)).length ∧
    20 ≤ ((_top_keywords (_clean "Amber blaze cedar dunes ember flint. Grove haven ivory jetty knoll lodge. Maple noble ocean pearl quilt ridge. Stone trail amber blaze cedar dunes. Ember flint grove haven ivory jetty. Knoll lodge maple noble ocean pearl. Quilt ridge stone trail amber blaze. Cedar dunes ember flint grove haven. Ivory jetty knoll lodge maple noble. Ocean pearl quilt ridge stone trail.".toList) 60).filter
      (fun k => 4 ≤ k.length)).length ∧
    (make_quiz ⟨fun l => l, fun _ l => l, fun _ l => l, fun _ l => l,
        fun _ t => ⟨t % 5, Nat.mod_lt t (by norm_num)⟩, 5⟩ none none
      "Amber blaze cedar dunes ember flint. Grove haven ivory jetty knoll lodge. Maple noble ocean pearl quilt ridge. Stone trail amber blaze cedar dunes. Ember flint grove haven ivory jetty. Knoll lodge maple noble ocean pearl. Quilt ridge stone trail amber blaze. Cedar dunes ember flint grove haven. Ivory jetty knoll lodge maple noble. Ocean pearl quilt ridge stone trail.".toList 5).length = 5 :=
  ⟨by decide, by decide,
    (c7_make_quiz_fallback ⟨fun l => l, fun _ l => l, fun _ l => l, fun _ l => l,
        fun _ t => ⟨t % 5, Nat.mod_lt t (by norm_num)⟩, 5⟩ none
      "Amber blaze cedar dunes ember flint. Grove haven ivory jetty knoll lodge. Maple noble ocean pearl quilt ridge. Stone trail amber blaze cedar dunes. Ember flint grove haven ivory jetty. Knoll lodge maple noble ocean pearl. Quilt ridge stone trail amber blaze. Cedar dunes ember flint grove haven. Ivory jetty knoll lodge maple noble. Ocean pearl quilt ridge stone trail.".toList
      (fun _ l => List.Perm.refl l) (fun _ l => List.Perm.refl l)
      (fun _ v => ⟨v.val, v.isLt, Fin.ext (by simp [Nat.mod_eq_of_lt v.isLt])⟩)
      (by decide) (by decide)).1⟩

/-! ## Claim C8 : the stem guard -/

theorem leadsWith_take : ∀ (p l : List Char), leadsWith p l = true ↔ l.take p.length = p := by
  intro p
  induction p with
  | nil => intro l; simp [leadsWith]
  | cons c cs ih =>
    intro l
    cases l with
    | nil => simp [leadsWith]
    | cons d ds =>
      rw [leadsWith]
      simp only [List.length_cons, List.take_succ_cons, Bool.and_eq_true, decide_eq_true_eq]
      rw [ih ds]
      constructor
      · rintro ⟨rfl, h2⟩; rw [h2]
      · intro h
        have := List.cons.injEq d (ds.take cs.length) c cs ▸ h
        rw [List.cons.injEq] at h
        exact ⟨h.1.symm, h.2⟩

theorem append_singleton_inj {x y : List Char} {a b : Char}
    (h : x ++ [a] = y ++ [b]) : x = y ∧ a = b := by
  have hr := congrArg List.reverse h
  simp only [List.reverse_append, List.reverse_cons, List.reverse_nil,
    List.nil_append, List.singleton_append, List.cons.injEq] at hr
  exact ⟨List.reverse_injective hr.2, hr.1⟩

theorem natDigitsGo_ne_nil : ∀ (fuel n : Nat), natDigitsGo fuel n ≠ [] := by
  intro fuel n
  cases fuel with
  | zero => simp [natDigitsGo]
  | succ f =>
    rw [natDigitsGo]
    by_cases h : n < 10
    · simp [h]
    · rw [if_neg h]
      simp

theorem natDigitsGo_fuel : ∀ (n fuel fuel' : Nat), n ≤ fuel → n ≤ fuel' →
    natDigitsGo fuel n = natDigitsGo fuel' n := by
  intro n
  induction n using Nat.strong_induction_on with
  | _ n ih =>
    intro fuel fuel' hf hf'
    by_cases h10 : n < 10
    · cases fuel with
      | zero =>
        have : n = 0 := by omega
        subst this
        cases fuel' with
        | zero => rfl
        | succ f' => simp [natDigitsGo]
      | succ f =>
        cases fuel' with
        | zero =>
          have : n = 0 := by omega
          subst this
          simp [natDigitsGo]
        | succ f' => simp [natDigitsGo, h10]
    · have hn0 : 0 < n := by omega
      cases fuel with
      | zero => omega
      | succ f =>
        cases fuel' with
        | zero => omega
        | succ f' =>
          rw [natDigitsGo, natDigitsGo, if_neg h10, if_neg h10]
          have hdiv : n / 10 < n := Nat.div_lt_self hn0 (by omega)
          rw [ih (n / 10) hdiv f f' (by omega) (by omega)]

theorem digitChar_toNat : ∀ d : Nat, d < 10 → (Char.ofNat (48 + d)).toNat = 48 + d := by
  intro d hd
  interval_cases d <;> rfl

theorem digitChar_inj {m n : Nat} (hm : m < 10) (hn : n < 10)
    (h : Char.ofNat (48 + m) = Char.ofNat (48 + n)) : m = n := by
  have := congrArg Char.toNat h
  rw [digitChar_toNat m hm, digitChar_toNat n hn] at this
  omega

theorem digitChar_ne_rparen : ∀ d : Nat, d < 10 → Char.ofNat (48 + d) ≠ ')' := by
  intro d hd
  interval_cases d <;> decide

theorem natDigitsGo_digits : ∀ (fuel n : Nat), ∀ c ∈ natDigitsGo fuel n,
    ∃ d, d < 10 ∧ c = Char.ofNat (48 + d) := by
  intro fuel
  induction fuel with
  | zero =>
    intro n c hc
    rw [natDigitsGo] at hc
    rw [List.mem_singleton] at hc
    exact ⟨n % 10, Nat.mod_lt _ (by omega), hc⟩
  | succ f ih =>
    intro n c hc
    rw [natDigitsGo] at hc
    by_cases h : n < 10
    · rw [if_pos h, List.mem_singleton] at hc
      exact ⟨n, h, hc⟩
    · rw [if_neg h, List.mem_append] at hc
      rcases hc with hc | hc
      · exact ih _ c hc
      · rw [List.mem_singleton] at hc
        exact ⟨n % 10, Nat.mod_lt _ (by omega), hc⟩

theorem natDigits_ne_rparen (n : Nat) : ∀ c ∈ natDigits n, c ≠ ')' := by
  intro c hc
  rcases natDigitsGo_digits n n c hc with ⟨d, hd, rfl⟩
  exact digitChar_ne_rparen d hd

theorem natDigits_inj : ∀ (m n : Nat), natDigits m = natDigits n → m = n := by
  intro m
  induction m using Nat.strong_induction_on with
  | _ m ih =>
    intro n h
    unfold natDigits at h
    by_cases hm10 : m < 10
    · by_cases hn10 : n < 10
      · have hm' : natDigitsGo m m = [Char.ofNat (48 + m)] := by
          cases m with
          | zero => rfl
          | succ k => rw [natDigitsGo, if_pos hm10]
        have hn' : natDigitsGo n n = [Char.ofNat (48 + n)] := by
          cases n with
          | zero => rfl
          | succ k => rw [natDigitsGo, if_pos hn10]
        rw [hm', hn'] at h
        rw [List.cons.injEq] at h
        exact digitChar_inj hm10 hn10 h.1
      · exfalso
        have hm' : natDigitsGo m m = [Char.ofNat (48 + m)] := by
          cases m with
          | zero => rfl
          | succ k => rw [natDigitsGo, if_pos hm10]
        have hn0 : 0 < n := by omega
        obtain ⟨f', hf'⟩ : ∃ f', n = f' + 1 := ⟨n - 1, by omega⟩
        rw [hm', hf', natDigitsGo, if_neg (by omega)] at h
        have hlen := congrArg List.length h
        have hne := natDigitsGo_ne_nil f' ((f' + 1) / 10)
        simp only [List.length_cons, List.length_nil, List.length_append,
          List.length_singleton] at hlen
        have := List.length_pos.mpr hne
        omega
    · by_cases hn10 : n < 10
      · exfalso
        have hn' : natDigitsGo n n = [Char.ofNat (48 + n)] := by
          cases n with
          | zero => rfl
          | succ k => rw [natDigitsGo, if_pos hn10]
        obtain ⟨f, hf⟩ : ∃ f, m = f + 1 := ⟨m - 1, by omega⟩
        rw [hn', hf, natDigitsGo, if_neg (by omega)] at h
        have hlen := congrArg List.length h
        have hne := natDigitsGo_ne_nil f ((f + 1) / 10)
        simp only [List.length_cons, List.length_nil, List.length_append,
          List.length_singleton] at hlen
        have := List.length_pos.mpr hne
        omega
      · obtain ⟨f, hf⟩ : ∃ f, m = f + 1 := ⟨m - 1, by omega⟩
        obtain ⟨f', hf'⟩ : ∃ f', n = f' + 1 := ⟨n - 1, by omega⟩
        rw [hf, natDigitsGo, if_neg (by omega), hf', natDigitsGo, if_neg (by omega)] at h
        obtain ⟨hpre, hdig⟩ := append_singleton_inj h
        have hmod : m % 10 = n % 10 := by
          refine digitChar_inj (Nat.mod_lt _ (by omega)) (Nat.mod_lt _ (by omega)) ?_
          rw [← hf, ← hf'] at hdig
          exact hdig
        have hdivm : m / 10 < m := Nat.div_lt_self (by omega) (by omega)
        have hdivn : n / 10 < n := Nat.div_lt_self (by omega) (by omega)
        have hpre' : natDigits (m / 10) = natDigits (n / 10) := by
          unfold natDigits
          rw [← natDigitsGo_fuel (m / 10) f (m / 10) (by omega) le_rfl,
            ← natDigitsGo_fuel (n / 10) f' (n / 10) (by omega) le_rfl]
          rw [← hf, ← hf'] at hpre
          exact hpre
        have hdiv : m / 10 = n / 10 := ih (m / 10) hdivm (n / 10) hpre'
        omega

theorem digitsParen_cancel : ∀ (D D' X Y : List Char),
    (∀ c ∈ D, c ≠ ')') → (∀ c ∈ D', c ≠ ')') →
    D ++ ')' :: X = D' ++ ')' :: Y → D = D' ∧ X = Y := by
  intro D
  induction D with
  | nil =>
    intro D' X Y _ hD' h
    cases D' with
    | nil => simpa using h
    | cons d ds =>
      exfalso
      simp only [List.nil_append, List.cons_append, List.cons.injEq] at h
      exact hD' d (List.mem_cons_self _ _) h.1.symm
  | cons c cs ih =>
    intro D' X Y hD hD' h
    cases D' with
    | nil =>
      exfalso
      simp only [List.nil_append, List.cons_append, List.cons.injEq] at h
      exact hD c (List.mem_cons_self _ _) h.1
    | cons d ds =>
      simp only [List.cons_append, List.cons.injEq] at h
      obtain ⟨rfl, h2⟩ := h
      obtain ⟨h3, h4⟩ := ih ds X Y (fun x hx => hD x (List.mem_cons_of_mem _ hx))
        (fun x hx => hD' x (List.mem_cons_of_mem _ hx)) h2
      exact ⟨by rw [h3], h4⟩

theorem replaceAllGo_id (pat repl : List Char) (_hpat : pat ≠ []) :
    ∀ (fuel : Nat) (l : List Char), hasSub pat l = false →
      replaceAllGo pat repl fuel l = l := by
  intro fuel
  induction fuel with
  | zero => intro l _; cases l <;> rfl
  | succ f ih =>
    intro l hsub
    cases l with
    | nil => rfl
    | cons c rest =>
      rw [hasSub, Bool.or_eq_false_iff] at hsub
      obtain ⟨hlead, hrest⟩ := hsub
      rw [replaceAllGo, if_neg, ih rest hrest]
      intro hcon
      rw [← leadsWith_take] at hcon
      rw [hcon.2] at hlead
      cases hlead

theorem replaceAll_id (pat repl : List Char) (hpat : pat ≠ []) (l : List Char)
    (hsub : hasSub pat l = false) : replaceAll pat repl l = l :=
  replaceAllGo_id pat repl hpat l.length l hsub

theorem replaceAllGo_blank_ne {i j : Nat} (hij : i ≠ j) :
    ∀ (fuel : Nat) (s : List Char), s.length ≤ fuel → hasSub BLANK s = true →
      replaceAllGo BLANK (numberedBlank i) fuel s ≠
        replaceAllGo BLANK (numberedBlank j) fuel s := by
  intro fuel
  induction fuel with
  | zero =>
    intro s hf hsub
    have : s = [] := List.eq_nil_of_length_eq_zero (by omega)
    subst this
    exact absurd hsub (by decide)
  | succ f ih =>
    intro s hf hsub
    cases s with
    | nil => exact absurd hsub (by decide)
    | cons c rest =>
      by_cases hmatch : (c :: rest).take BLANK.length = BLANK
      · rw [replaceAllGo, replaceAllGo, if_pos ⟨by decide, hmatch⟩,
          if_pos ⟨by decide, hmatch⟩]
        intro heq
        unfold numberedBlank at heq
        simp only [List.append_assoc] at heq
        have h1 := List.append_cancel_left heq
        have h2 := List.append_cancel_left h1
        rw [show (")".toList : List Char) = [')'] from rfl] at h2
        simp only [List.singleton_append] at h2
        obtain ⟨hD, _⟩ := digitsParen_cancel _ _ _ _
          (natDigits_ne_rparen (i + 1)) (natDigits_ne_rparen (j + 1)) h2
        have := natDigits_inj _ _ hD
        exact hij (by omega)
      · rw [replaceAllGo, replaceAllGo, if_neg (fun hcon => hmatch hcon.2),
          if_neg (fun hcon => hmatch hcon.2)]
        intro heq
        rw [List.cons.injEq] at heq
        have hrest : hasSub BLANK rest = true := by
          rw [hasSub, Bool.or_eq_true] at hsub
          rcases hsub with hlead | hr
          · exact absurd ((leadsWith_take BLANK (c :: rest)).mp hlead) hmatch
          · exact hr
        exact ih rest (by simp at hf ⊢; omega) hrest heq.2

theorem replaceAll_blank_ne {i j : Nat} (hij : i ≠ j) (s : List Char)
    (hsub : hasSub BLANK s = true) :
    replaceAll BLANK (numberedBlank i) s ≠ replaceAll BLANK (numberedBlank j) s :=
  replaceAllGo_blank_ne hij s.length s le_rfl hsub

theorem mapIdx_id_of (l : List QItem) (f : Nat → QItem → QItem)
    (h : ∀ a ∈ l, ∀ i, f i a = a) : l.mapIdx f = l := by
  rw [List.mapIdx_eq_enum_map]
  conv_rhs => rw [← List.enum_map_snd l]
  refine List.map_congr_left ?_
  intro p hp
  exact h p.2 (List.snd_mem_of_mem_enum hp) p.1

theorem mem_dedupFirst_or_seen {α : Type} [DecidableEq α] :
    ∀ (seen l : List α) (x : α), x ∈ l → x ∈ dedupFirst seen l ∨ x ∈ seen := by
  intro seen l
  induction l generalizing seen with
  | nil => intro x hx; cases hx
  | cons y ys ih =>
    intro x hx
    rw [dedupFirst]
    by_cases hy : y ∈ seen
    · rw [if_pos hy]
      rcases List.mem_cons.mp hx with rfl | hx'
      · exact Or.inr hy
      · exact ih seen x hx'
    · rw [if_neg hy]
      rcases List.mem_cons.mp hx with rfl | hx'
      · exact Or.inl (List.mem_cons_self _ _)
      · rcases ih (y :: seen) x hx' with h | h
        · exact Or.inl (List.mem_cons_of_mem _ h)
        · rcases List.mem_cons.mp h with rfl | h'
          · exact Or.inl (List.mem_cons_self _ _)
          · exact Or.inr h'

theorem all_eq_of_dedup_len_one {α : Type} [DecidableEq α] {l : List α}
    (h : (dedupFirst [] l).length = 1) : ∀ a ∈ l, ∀ b ∈ l, a = b := by
  obtain ⟨x, hx⟩ : ∃ x, dedupFirst [] l = [x] := by
    cases hd : dedupFirst [] l with
    | nil => rw [hd] at h; cases h
    | cons z zs =>
      rw [hd] at h
      simp only [List.length_cons] at h
      have : zs = [] := List.eq_nil_of_length_eq_zero (by omega)
      exact ⟨z, by rw [this]⟩
  intro a ha b hb
  have h1 := mem_dedupFirst_or_seen [] l a ha
  have h2 := mem_dedupFirst_or_seen [] l b hb
  rw [hx] at h1 h2
  simp only [List.mem_singleton, List.not_mem_nil, or_false] at h1 h2
  rw [h1, h2]

/-- Claim C8 (amended): when every stem is identical and there are at least two
items, the guard rewrites stem `i` by replacing each occurrence of the blank
`"____"` with the numbered blank `"____ (i+1)"`.  Stems that contain the blank
(cloze stems) become pairwise distinct; stems without it (presence-tier stems)
are left unchanged, so those may remain identical. -/
theorem c8_stem_guard (qs : List QItem)
    (h1 : distinctStems qs = 1) (_h2 : 2 ≤ qs.length) :
    stemGuard qs = qs.mapIdx
      (fun i q => { q with q := replaceAll BLANK (numberedBlank i) q.q }) ∧
    ((∀ q ∈ qs, hasSub BLANK q.q = true) →
      ∀ i j, i < qs.length → j < qs.length → i ≠ j →
        ((stemGuard qs).getD i default).q ≠ ((stemGuard qs).getD j default).q) ∧
    ((∀ q ∈ qs, hasSub BLANK q.q = false) → stemGuard qs = qs) := by
  have heq : stemGuard qs = qs.mapIdx
      (fun i q => { q with q := replaceAll BLANK (numberedBlank i) q.q }) := by
    unfold stemGuard
    rw [if_pos h1]
  refine ⟨heq, ?_, ?_⟩
  · intro hblank i j hi hj hij
    have hall := all_eq_of_dedup_len_one (l := qs.map QItem.q) h1
    have hgi : i < (stemGuard qs).length := by rw [stemGuard_length]; omega
    have hgj : j < (stemGuard qs).length := by rw [stemGuard_length]; omega
    rw [List.getD_eq_getElem _ _ hgi, List.getD_eq_getElem _ _ hgj]
    have hgetI : (stemGuard qs)[i] = { qs[i] with
        q := replaceAll BLANK (numberedBlank i) qs[i].q } := by
      simp only [heq, List.mapIdx_eq_enum_map]
      rw [List.getElem_map, List.getElem_enum]
      rfl
    have hgetJ : (stemGuard qs)[j] = { qs[j] with
        q := replaceAll BLANK (numberedBlank j) qs[j].q } := by
      simp only [heq, List.mapIdx_eq_enum_map]
      rw [List.getElem_map, List.getElem_enum]
      rfl
    rw [hgetI, hgetJ]
    simp only
    have hs : qs[i].q = qs[j].q :=
      hall _ (List.mem_map_of_mem QItem.q (qs.getElem_mem hi))
        _ (List.mem_map_of_mem QItem.q (qs.getElem_mem hj))
    rw [hs]
    exact replaceAll_blank_ne hij qs[j].q (hblank qs[j] (qs.getElem_mem hj))
  · intro hnoblank
    rw [heq]
    refine mapIdx_id_of qs _ ?_
    intro a ha i
    have := replaceAll_id BLANK (numberedBlank i) (by decide) a.q (hnoblank a ha)
    rw [this]

set_option maxRecDepth 40000 in
/-- Counterexample to C8 as stated: a brief whose sentences are too short for
the cloze tier yields two presence-tier items with identical stems; the guard
fires but its rewrite only touches the cloze blank `"____"`, which presence
stems do not contain, so `make_quiz` returns two items sharing one stem. -/
theorem c8_stem_guard_counterexample :
    distinctStems (make_quiz_pre ⟨fun l => l, fun _ l => l, fun _ l => l, fun _ l => l,
        fun _ t => ⟨t % 5, Nat.mod_lt t (by norm_num)⟩, 5⟩ none none
      "Alpha beta. Gamma delta. Epsilon zeta. Theta iota.".toList 5) = 1 ∧
    2 ≤ (make_quiz_pre ⟨fun l => l, fun _ l => l, fun _ l => l, fun _ l => l,
        fun _ t => ⟨t % 5, Nat.mod_lt t (by norm_num)⟩, 5⟩ none none
      "Alpha beta. Gamma delta. Epsilon zeta. Theta iota.".toList 5).length ∧
    (make_quiz ⟨fun l => l, fun _ l => l, fun _ l => l, fun _ l => l,
        fun _ t => ⟨t % 5, Nat.mod_lt t (by norm_num)⟩, 5⟩ none none
      "Alpha beta. Gamma delta. Epsilon zeta. Theta iota.".toList 5).length = 2 ∧
    ((make_quiz ⟨fun l => l, fun _ l => l, fun _ l => l, fun _ l => l,
        fun _ t => ⟨t % 5, Nat.mod_lt t (by norm_num)⟩, 5⟩ none none
      "Alpha beta. Gamma delta. Epsilon zeta. Theta iota.".toList 5).getD 0 default).q =
    ((make_quiz ⟨fun l => l, fun _ l => l, fun _ l => l, fun _ l => l,
        fun _ t => ⟨t % 5, Nat.mod_lt t (by norm_num)⟩, 5⟩ none none
      "Alpha beta. Gamma delta. Epsilon zeta. Theta iota.".toList 5).getD 1 default).q := by
  refine ⟨by decide, by decide, by decide, by decide⟩

/-- Witness for C8 (amended) on two identical blank-bearing stems. -/
theorem c8_stem_guard_witness :
    distinctStems [(⟨"The ____ runs.".toList, [], 0, []⟩ : QItem),
      ⟨"The ____ runs.".toList, [], 0, []⟩] = 1 ∧
    ((stemGuard [(⟨"The ____ runs.".toList, [], 0, []⟩ : QItem),
      ⟨"The ____ runs.".toList, [], 0, []⟩]).getD 0 default).q ≠
    ((stemGuard [(⟨"The ____ runs.".toList, [], 0, []⟩ : QItem),
      ⟨"The ____ runs.".toList, [], 0, []⟩]).getD 1 default).q :=
  ⟨by decide,
    (c8_stem_guard [⟨"The ____ runs.".toList, [], 0, []⟩,
        ⟨"The ____ runs.".toList, [], 0, []⟩] (by decide) (by decide)).2.1
      (by decide) 0 1 (by decide) (by decide) (by decide)⟩

end SRA
